import Mathlib

/-!
Shallow embedding of the holdings aggregator and overlap layout engine of
`src/app.py`:

* `process_market_maker_data` (lines 685-739): raw per-entity records to a
  cross-referenced index,
* `filtered_data` (lines 253-259): restriction of the index to the selected
  entities and assets,
* `create_venn_diagram` (lines 808-1150): the geometric scene.

Numbers are modelled as rationals (scene coordinates as reals, since the
anchors use `cos`/`sin`).  Python's dynamic values are modelled by `PyVal`;
fallible Python operations (attribute access on a non-dict, arithmetic on a
non-number, division by zero, `math.sqrt` of a negative) are modelled in the
`Except String` monad, the error text being the Python exception class name.
Python `dict`s appear as association lists in insertion order: lookup takes
the first match, assignment overwrites in place or appends, exactly as a
`dict` that never holds a duplicate key.
-/

/-- A Python value as far as `app.py` manipulates them: a number, a string
or a dict. -/
inductive PyVal : Type where
  | num (q : ℚ)
  | str (s : String)
  | dict (entries : List (String × PyVal))

/-- Whether a `PyVal` is a dict (a mapping). -/
def PyVal.isDict : PyVal → Bool
  | .dict _ => true
  | _ => false

/-- First-match association-list lookup (Python dict indexing; real dicts
have no duplicate keys, so first-match is exact). -/
def lookupA {α : Type} (k : String) : List (String × α) → Option α
  | [] => none
  | p :: rest => if p.1 = k then some p.2 else lookupA k rest

/-- Python `d[k] = v`: overwrite in place when the key exists, else append
(dicts preserve insertion order). -/
def setA {α : Type} (k : String) (v : α) : List (String × α) → List (String × α)
  | [] => [(k, v)]
  | p :: rest => if p.1 = k then (p.1, v) :: rest else p :: setA k v rest

/-- Update the value stored at key `k` in place, if present. -/
def modifyA {α : Type} (k : String) (f : α → α) : List (String × α) → List (String × α)
  | [] => []
  | p :: rest => if p.1 = k then (p.1, f p.2) :: rest else p :: modifyA k f rest

/-- Python `v.get(k, dflt)`: an `AttributeError` when `v` is not a dict. -/
def pyGet (v : PyVal) (k : String) (dflt : PyVal) : Except String PyVal :=
  match v with
  | .dict es => .ok ((lookupA k es).getD dflt)
  | _ => .error "AttributeError"

/-- Using a Python value as a number (as the `+` at lines 703/729/730 does):
a `TypeError` when it is not one. -/
def pyNum : PyVal → Except String ℚ
  | .num q => .ok q
  | _ => .error "TypeError"

/-- Iterating a Python value with `.values()` / `.items()`: an
`AttributeError` when it is not a dict. -/
def asDict : PyVal → Except String (List (String × PyVal))
  | .dict es => .ok es
  | _ => .error "AttributeError"

/-- Python `/` on numbers: `ZeroDivisionError` on a zero denominator. -/
def pyDiv (a b : ℚ) : Except String ℚ :=
  if b = 0 then .error "ZeroDivisionError" else .ok (a / b)

/-- `math.sqrt`: `ValueError` (math domain error) on a negative argument. -/
noncomputable def pySqrt (q : ℚ) : Except String ℝ :=
  if q < 0 then .error "ValueError" else .ok (Real.sqrt (q : ℝ))

/-- `mapM` over `Except String`, written out for definitional control. -/
def exMapM {α β : Type} (f : α → Except String β) : List α → Except String (List β)
  | [] => .ok []
  | a :: l =>
    match f a with
    | .error e => .error e
    | .ok b =>
      match exMapM f l with
      | .error e => .error e
      | .ok bs => .ok (b :: bs)

/-- `foldM` over `Except String`, written out for definitional control. -/
def exFoldlM {σ α : Type} (f : σ → α → Except String σ) (s : σ) :
    List α → Except String σ
  | [] => .ok s
  | a :: l =>
    match f s a with
    | .error e => .error e
    | .ok s' => exFoldlM f s' l

/-- Whether an `Except` is a success. -/
def exOk {α : Type} : Except String α → Bool
  | .ok _ => true
  | .error _ => false

/-- Whether an `Except` is an error. -/
def exErr {α : Type} : Except String α → Bool
  | .ok _ => false
  | .error _ => true

/-! ### The normalized index (the `processed_data` shape of lines 695-698) -/

/-- One `{"quantity": _, "value_usd": _}` holding record (lines 713-716).
On every successful aggregation both fields are numbers, so they are carried
as rationals. -/
structure Holding : Type where
  quantity : ℚ
  value_usd : ℚ

/-- One entry of `processed_data["entities"]` (lines 705-708). -/
structure EntityNode : Type where
  total_value : ℚ
  assets : List (String × Holding)

/-- One entry of `processed_data["assets"]` (lines 720-725). -/
structure AssetNode : Type where
  name : PyVal
  entities : List String
  total_quantity : ℚ
  total_value : ℚ

/-- The cross-referenced index (`processed_data`). -/
structure Index : Type where
  entities : List (String × EntityNode)
  assets : List (String × AssetNode)

/-! ### The aggregator: `process_market_maker_data` (lines 685-739) -/

/-- Line 703: `sum(asset_info.get("value_usd", 0) for asset_info in
entity_assets.values())`.  Raises `AttributeError` on a non-dict record and
`TypeError` on a non-numeric value. -/
def entity_total_value (items : List (String × PyVal)) : Except String ℚ :=
  exFoldlM
    (fun acc p =>
      match pyGet p.2 "value_usd" (PyVal.num 0) with
      | .error e => .error e
      | .ok v =>
        match pyNum v with
        | .error e => .error e
        | .ok q => .ok (acc + q))
    0 items

/-- Lines 711-730, the body of the per-asset loop for the entity
`entity_name`: store the holding under the entity, create the asset node on
first sight (its `name` defaulting to the symbol), append the entity to the
asset's holder list and accumulate the totals.  Python raises the
`TypeError` of line 729 when the quantity is not a number; the value was
already checked by line 703. -/
def process_asset (entity_name : String) (st : Index) (p : String × PyVal) :
    Except String Index :=
  match pyGet p.2 "quantity" (PyVal.num 0) with
  | .error e => .error e
  | .ok qv =>
    match pyGet p.2 "value_usd" (PyVal.num 0) with
    | .error e => .error e
    | .ok vv =>
      match pyNum qv with
      | .error e => .error e
      | .ok q =>
        match pyNum vv with
        | .error e => .error e
        | .ok v =>
          match pyGet p.2 "name" (PyVal.str p.1) with
          | .error e => .error e
          | .ok nameV =>
            let storeHolding : EntityNode → EntityNode :=
              fun en => { en with assets := setA p.1 ⟨q, v⟩ en.assets }
            let addHolder : AssetNode → AssetNode :=
              fun a =>
                { a with
                  entities := a.entities ++ [entity_name],
                  total_quantity := a.total_quantity + q,
                  total_value := a.total_value + v }
            let st1 : Index := ⟨modifyA entity_name storeHolding st.entities, st.assets⟩
            let st2 : Index :=
              if (lookupA p.1 st1.assets).isSome then st1
              else ⟨st1.entities, st1.assets ++ [(p.1, ⟨nameV, [], 0, 0⟩)]⟩
            .ok ⟨st2.entities, modifyA p.1 addHolder st2.assets⟩

/-- Lines 701-730, the body of the per-entity loop: read the record's
`assets` mapping (default `{}`), compute the entity's total, store the
entity node, then fold the per-asset loop. -/
def process_entity (st : Index) (p : String × PyVal) : Except String Index :=
  match pyGet p.2 "assets" (PyVal.dict []) with
  | .error e => .error e
  | .ok entity_assets =>
    match asDict entity_assets with
    | .error e => .error e
    | .ok items =>
      match entity_total_value items with
      | .error e => .error e
      | .ok total_value =>
        exFoldlM (process_asset p.1)
          { st with entities := setA p.1 ⟨total_value, []⟩ st.entities }
          items

/-- Stable descending insertion step: `x` goes after every element whose key
is `≥ key x`. -/
def insertDesc {α β : Type} [LinearOrder β] (key : α → β) (x : α) :
    List α → List α
  | [] => [x]
  | y :: ys => if key y < key x then x :: y :: ys else y :: insertDesc key x ys

/-- Python `sorted(l, key=key, reverse=True)`: the unique stable sort into
non-increasing key order (CPython's sort is documented stable, and
`reverse=True` does not reorder ties). -/
def pySortDesc {α β : Type} [LinearOrder β] (key : α → β) (l : List α) : List α :=
  l.foldl (fun acc x => insertDesc key x acc) []

/-- Lines 695-731: the aggregation fold, before the final sort. -/
def process_unsorted (raw_data : List (String × PyVal)) : Except String Index :=
  exFoldlM process_entity ⟨[], []⟩ raw_data

/-- `process_market_maker_data` (lines 685-739): the aggregation fold
followed by the re-ordering of the assets by total value, descending
(lines 732-737). -/
def process_market_maker_data (raw_data : List (String × PyVal)) :
    Except String Index :=
  match process_unsorted raw_data with
  | .error e => .error e
  | .ok d => .ok { d with assets := pySortDesc (fun p => p.2.total_value) d.assets }

/-! ### The selection filter: `filtered_data` (lines 253-259) -/

/-- Lines 253-259: keep the selected entities and assets that exist in the
index, in selection order; the kept nodes are shared with the full index
(in particular a kept asset keeps its full holder list and total). -/
def filtered_data (data : Index) (selected_entities selected_assets : List String) :
    Index where
  entities := selected_entities.filterMap
    (fun e => (lookupA e data.entities).map (fun en => (e, en)))
  assets := selected_assets.filterMap
    (fun a => (lookupA a data.assets).map (fun an => (a, an)))

/-! ### The layout engine: `create_venn_diagram` (lines 808-1150) -/

/-- A 2D scene point. -/
abbrev Point : Type := ℝ × ℝ

/-- Line 829: the `(entity, total_value)` pairs, in index order. -/
def entity_values (data : Index) : List (String × ℚ) :=
  data.entities.map (fun p => (p.1, p.2.total_value))

/-- Lines 828-831: the selected entities sorted by total value, descending,
stably. -/
def sorted_entities (data : Index) : List String :=
  (pySortDesc (fun p => p.2) (entity_values data)).map Prod.fst

/-- Lines 838-842: the fixed fifteen-colour high-contrast palette. -/
def base_colors : List String :=
  ["#3366CC", "#DC3912", "#FF9900", "#109618", "#990099",
   "#0099C6", "#DD4477", "#66AA00", "#B82E2E", "#316395",
   "#994499", "#22AA99", "#AAAA11", "#6633CC", "#E67300"]

/-- Lines 844-848: the rank-indexed colour assignment.  Lines 845-846 extend
the palette by repeated self-concatenation whenever entities outnumber
colours, so `base_colors[i % len(base_colors)]` is the original palette at
`i % 15`. -/
def entity_colors (data : Index) : List (String × String) :=
  (sorted_entities data).enum.map
    (fun p => (p.2, base_colors.getD (p.1 % base_colors.length) ""))

/-- Lines 852-856: the anchor on the circle of radius 5.5 for rank `i` of
`n`. -/
noncomputable def anchorPoint (n i : ℕ) : Point :=
  (5.5 * Real.cos (2 * Real.pi * i / n), 5.5 * Real.sin (2 * Real.pi * i / n))

/-- Lines 851-856: the `entity_positions` mapping, rank by rank. -/
noncomputable def entity_positions (data : Index) : List (String × Point) :=
  let es := sorted_entities data
  es.enum.map (fun p => (p.2, anchorPoint es.length p.1))

/-- `entity_positions[e]`; every entity this is read for is a key (the code
only reads anchors of entities drawn from `sorted_entities`). -/
noncomputable def entityPos (data : Index) (e : String) : Point :=
  (lookupA e (entity_positions data)).getD (0, 0)

/-- `data["entities"][e]`; every entity this is read for is a key. -/
def entityNode (data : Index) (e : String) : EntityNode :=
  (lookupA e data.entities).getD ⟨0, []⟩

/-- `data["assets"][s]`; every asset this is read for is a key. -/
def assetNode (data : Index) (s : String) : AssetNode :=
  (lookupA s data.assets).getD ⟨.str "", [], 0, 0⟩

/-- An entity-zone bubble (lines 863-877); the fill colour is the lightened
palette colour, cosmetic and omitted here, the stored colour is the
entity's palette colour (the marker line colour). -/
structure EntityZone : Type where
  entity : String
  center : Point
  size : ℝ
  color : String

/-- Lines 858-877: one entity zone; line 860 takes `math.sqrt` of the
entity's total value (a `ValueError` when it is negative), line 868 floors
the marker size at 40. -/
noncomputable def entity_zone (data : Index) (e : String) :
    Except String EntityZone :=
  match pySqrt (entityNode data e).total_value with
  | .error err => .error err
  | .ok s =>
    .ok { entity := e, center := entityPos data e,
          size := max (s * 0.00002 * 25) 40,
          color := (lookupA e (entity_colors data)).getD "" }

/-- Line 887: the holders of an asset among the selected entities, in rank
order. -/
def asset_holders (data : Index) (asset : String) : List String :=
  (sorted_entities data).filter (fun e => (assetNode data asset).entities.contains e)

/-- Line 903: the weight of one holder for one asset — the holder's
`value_usd` of this specific asset, 0 when absent. -/
def holderWeight (data : Index) (holder asset : String) : ℚ :=
  ((lookupA asset (entityNode data holder).assets).map Holding.value_usd).getD 0

/-- Line 908: the sum of the holders' weights. -/
def total_weight (data : Index) (asset : String) : ℚ :=
  ((asset_holders data asset).map (fun h => holderWeight data h asset)).sum

/-- Lines 894-915: the asset's position — the weight-accumulated anchor sums
divided by the total weight when that is `> 0`, else the plain average of
the holders' anchors. -/
noncomputable def asset_position (data : Index) (asset : String) : Point :=
  let holders := asset_holders data asset
  let x_sum : ℝ :=
    (holders.map (fun h => (entityPos data h).1 * ((holderWeight data h asset : ℚ) : ℝ))).sum
  let y_sum : ℝ :=
    (holders.map (fun h => (entityPos data h).2 * ((holderWeight data h asset : ℚ) : ℝ))).sum
  if 0 < total_weight data asset then
    (x_sum / ((total_weight data asset : ℚ) : ℝ), y_sum / ((total_weight data asset : ℚ) : ℝ))
  else
    ((holders.map (fun h => (entityPos data h).1)).sum / holders.length,
     (holders.map (fun h => (entityPos data h).2)).sum / holders.length)

/-- Line 919: `math.log10(max(1, total_value)) * 0.8`. -/
noncomputable def asset_size (data : Index) (asset : String) : ℝ :=
  Real.logb 10 (((max 1 (assetNode data asset).total_value : ℚ) : ℝ)) * 0.8

/-- Line 922: the denominator — the sum of the total values of all (selected)
entities of the data handed to the layout. -/
def total_market_value (data : Index) : ℚ :=
  (data.entities.map (fun p => p.2.total_value)).sum

/-- Lines 921-923: the asset's market-share percentage; Python's `/` raises
`ZeroDivisionError` when the selected entities' totals sum to zero. -/
def asset_percentage (data : Index) (asset : String) : Except String ℚ :=
  match pyDiv (assetNode data asset).total_value (total_market_value data) with
  | .error e => .error e
  | .ok r => .ok (r * 100)

/-- The per-asset quantities computed by the first asset loop
(lines 885-924). -/
structure AssetCalc : Type where
  symbol : String
  holders : List String
  pos : Point
  size : ℝ
  percentage : ℚ

/-- Lines 885-924: the first asset loop, skipping assets with no selected
holder (lines 889-890). -/
noncomputable def asset_calcs (data : Index) : Except String (List AssetCalc) :=
  exMapM
    (fun a =>
      match asset_percentage data a with
      | .error e => .error e
      | .ok pct =>
        .ok { symbol := a, holders := asset_holders data a,
              pos := asset_position data a, size := asset_size data a,
              percentage := pct })
    ((data.assets.map Prod.fst).filter (fun a => !(asset_holders data a).isEmpty))

/-- Lines 926-941: the entity labels (uppercased names at the anchors). -/
noncomputable def entity_labels (data : Index) : List (String × Point) :=
  (entity_positions data).map (fun p => (p.1.toUpper, p.2))

/-- Lines 943-944: the draw order of the second asset loop —
`sorted(assets, key=lambda a: asset_sizes.get(a, 0), reverse=True)`; assets
skipped by the first loop have no size entry and sort with key 0. -/
noncomputable def sorted_assets (data : Index) : List String :=
  pySortDesc
    (fun a => if (asset_holders data a).isEmpty then (0 : ℝ) else asset_size data a)
    (data.assets.map Prod.fst)

/-- Lines 978-990: the five percentage tiers `(min, max, colour)` and the
`next(..., last colour)` selection. -/
def percentage_color_ranges : List (ℚ × ℚ × String) :=
  [(0, 1, "#CCCCCC"), (1, 5, "#92D050"), (5, 10, "#00B0F0"),
   (10, 20, "#FFC000"), (20, 100, "#FF0000")]

/-- Lines 986-990: the colour of a percentage — the first tier with
`min ≤ pct < max`, defaulting to the last tier's colour. -/
def percentage_color (pct : ℚ) : String :=
  (((percentage_color_ranges.filter
        (fun r => decide (r.1 ≤ pct) && decide (pct < r.2.1))).head?).map
    (fun r => r.2.2)).getD "#FF0000"

/-- Lines 966-972: the per-holder value/percentage breakdown of the hover
text; line 971 divides by the asset's total value (`ZeroDivisionError` when
that is zero). -/
def holder_breakdown (data : Index) (asset : String) :
    Except String (List (String × ℚ × ℚ)) :=
  exFoldlM
    (fun acc h =>
      match lookupA asset (entityNode data h).assets with
      | none => .ok acc
      | some hold =>
        match pyDiv hold.value_usd (assetNode data asset).total_value with
        | .error e => .error e
        | .ok r => .ok (acc ++ [(h, hold.value_usd, r * 100)]))
    [] (asset_holders data asset)

/-- One asset bubble of the second loop (lines 1019-1042): position, size
and percentage from the first loop, the tier colour of lines 986-1017 (all
branches of lines 1001-1017 end in the percentage colour), and the hover
breakdown. -/
structure AssetBubble : Type where
  symbol : String
  pos : Point
  size : ℝ
  color : String
  percentage : ℚ
  breakdown : List (String × ℚ × ℚ)

/-- Lines 956-1042: one asset bubble from its first-loop calculation. -/
noncomputable def asset_bubble (data : Index) (c : AssetCalc) :
    Except String AssetBubble :=
  match holder_breakdown data c.symbol with
  | .error e => .error e
  | .ok br =>
    .ok { symbol := c.symbol, pos := c.pos, size := c.size,
          color := percentage_color c.percentage, percentage := c.percentage,
          breakdown := br }

/-- The scene: entity zones, entity labels, asset bubbles (in draw order),
the fixed legend and the fixed `[-7, 7]` view range. -/
structure Scene : Type where
  zones : List EntityZone
  labels : List (String × Point)
  bubbles : List AssetBubble
  legend : List (String × String)
  view_range : ℚ × ℚ

/-- Lines 1063-1106: the fixed legend — one entry per percentage tier plus
the multi-holder entry. -/
def legend_entries : List (String × String) :=
  [("Market Share: <1%", "#CCCCCC"), ("Market Share: 1-5%", "#92D050"),
   ("Market Share: 5-10%", "#00B0F0"), ("Market Share: 10-20%", "#FFC000"),
   ("Market Share: >20%", "#FF0000"),
   ("Asset held by multiple market makers", "#8C1AFF")]

/-- `create_venn_diagram` (lines 808-1150): entity zones (lines 851-877),
the first asset loop (lines 885-924), entity labels (lines 926-941), the
second asset loop in draw order, skipping assets without a position
(lines 943-1059), the legend and the fixed view range (lines 1108-1150). -/
noncomputable def create_venn_diagram (data : Index) : Except String Scene :=
  match exMapM (entity_zone data) (sorted_entities data) with
  | .error e => .error e
  | .ok zones =>
    match asset_calcs data with
    | .error e => .error e
    | .ok calcs =>
      match
        exFoldlM
          (fun acc a =>
            match calcs.find? (fun c => c.symbol == a) with
            | none => .ok acc
            | some c =>
              match asset_bubble data c with
              | .error e => .error e
              | .ok b => .ok (acc ++ [b]))
          [] (sorted_assets data)
      with
      | .error e => .error e
      | .ok bubbles =>
        .ok { zones := zones, labels := entity_labels data, bubbles := bubbles,
              legend := legend_entries, view_range := (-7, 7) }

/-! ### Derived definitions used by the statements -/

/-- The sum of the `value_usd` of an entity's stored holdings. -/
def holdingsSum (en : EntityNode) : ℚ :=
  (en.assets.map (fun q => q.2.value_usd)).sum

/-- The sum of `total_value` over the index's entities (for the aggregator
this is the same expression as the layout's `total_market_value`, stated
separately for the conservation property). -/
def sum_entity_values (d : Index) : ℚ :=
  (d.entities.map (fun p => p.2.total_value)).sum

/-- The sum of `total_value` over the index's assets. -/
def sum_asset_values (d : Index) : ℚ :=
  (d.assets.map (fun p => p.2.total_value)).sum

/-- The structural invariants of an aggregated index: unique keys, unique
holder lists, holders resolve to entities, referential symmetry in both
directions, and both derived totals are the sums they claim to be. -/
def Agg (d : Index) : Prop :=
  (d.entities.map Prod.fst).Nodup ∧
  (d.assets.map Prod.fst).Nodup ∧
  (∀ p ∈ d.assets, p.2.entities.Nodup) ∧
  (∀ p ∈ d.assets, ∀ e ∈ p.2.entities, e ∈ d.entities.map Prod.fst) ∧
  (∀ p ∈ d.assets, ∀ e ∈ p.2.entities,
    (lookupA p.1 (entityNode d e).assets).isSome = true) ∧
  (∀ p ∈ d.entities, ∀ q ∈ p.2.assets, p.1 ∈ (assetNode d q.1).entities) ∧
  (∀ p ∈ d.entities, p.2.total_value = holdingsSum p.2) ∧
  (∀ p ∈ d.assets,
    p.2.total_value = (p.2.entities.map (fun e => holderWeight d e p.1)).sum)

instance (d : Index) : Decidable (Agg d) := by
  unfold Agg; infer_instance

/-- The `assets` items of a raw record, as the aggregation loop reads them
(empty when the record is not a dict or its `assets` value is not a dict —
those inputs make the aggregation raise instead). -/
def itemsOf (rec : PyVal) : List (String × PyVal) :=
  match rec with
  | .dict es =>
    match (lookupA "assets" es).getD (.dict []) with
    | .dict items => items
    | _ => []
  | _ => []

/-- A raw input shaped like a Python dict-of-dicts can never repeat a key:
entity names are unique and each record's asset symbols are unique. -/
def RawWF (raw : List (String × PyVal)) : Prop :=
  (raw.map Prod.fst).Nodup ∧ ∀ p ∈ raw, ((itemsOf p.2).map Prod.fst).Nodup

instance (raw : List (String × PyVal)) : Decidable (RawWF raw) := by
  unfold RawWF; infer_instance

/-- Line 721: the display name an asset node is created with from a record's
item — the item's `name` value, defaulting to the symbol. -/
def nameOf (info : PyVal) (s : String) : PyVal :=
  match info with
  | .dict es => (lookupA "name" es).getD (.str s)
  | _ => .str s

/-- The display name contributed by the first record (in raw order) whose
`assets` mapping contains the symbol `s`; `none` when no record holds `s`. -/
def firstNameOf (raw : List (String × PyVal)) (s : String) : Option PyVal :=
  match raw with
  | [] => none
  | p :: rest =>
    match lookupA s (itemsOf p.2) with
    | some info => some (nameOf info s)
    | none => firstNameOf rest s

/-- The `value_usd` number of one raw item, as line 703/730 reads it (0 when
absent; the non-numeric case raises instead and never reaches a total). -/
def itemValue (p : String × PyVal) : ℚ :=
  match pyGet p.2 "value_usd" (PyVal.num 0) with
  | .ok v =>
    match pyNum v with
    | .ok q => q
    | .error _ => 0
  | .error _ => 0

/-- Modelled from the spec for comparison with `asset_position`: "the
weighted average of its holders' anchor positions, weight = that holder's
value of this specific asset" — the weighted centroid with no fallback. -/
noncomputable def weighted_centroid_spec (data : Index) (asset : String) : Point :=
  (((asset_holders data asset).map
      (fun h => (entityPos data h).1 * ((holderWeight data h asset : ℚ) : ℝ))).sum
     / ((total_weight data asset : ℚ) : ℝ),
   ((asset_holders data asset).map
      (fun h => (entityPos data h).2 * ((holderWeight data h asset : ℚ) : ℝ))).sum
     / ((total_weight data asset : ℚ) : ℝ))

/-- `Agg` with the total-value equation exempted for the entity `e` whose
record is mid-aggregation (its node already carries the full total of
line 703 while its holdings are still being stored one by one). -/
def MidInv (e : String) (d : Index) : Prop :=
  (d.entities.map Prod.fst).Nodup ∧
  (d.assets.map Prod.fst).Nodup ∧
  (∀ p ∈ d.assets, p.2.entities.Nodup) ∧
  (∀ p ∈ d.assets, ∀ e' ∈ p.2.entities, e' ∈ d.entities.map Prod.fst) ∧
  (∀ p ∈ d.assets, ∀ e' ∈ p.2.entities,
    (lookupA p.1 (entityNode d e').assets).isSome = true) ∧
  (∀ p ∈ d.entities, ∀ q ∈ p.2.assets, p.1 ∈ (assetNode d q.1).entities) ∧
  (∀ p ∈ d.entities, p.1 ≠ e → p.2.total_value = holdingsSum p.2) ∧
  (∀ p ∈ d.assets,
    p.2.total_value = (p.2.entities.map (fun e' => holderWeight d e' p.1)).sum)

/-! ### Concrete inputs used by counterexamples and witnesses -/

/-- The spec §8 example scenario: A holds X (100), B holds X (300) and
Y (50). -/
def exRaw : List (String × PyVal) :=
  [("A", .dict [("assets", .dict [("X", .dict [("value_usd", .num 100)])])]),
   ("B", .dict [("assets", .dict [("X", .dict [("value_usd", .num 300)]),
                                  ("Y", .dict [("value_usd", .num 50)])])])]

/-- The index `process_market_maker_data` produces from `exRaw`. -/
def exIdx : Index :=
  ⟨[("A", ⟨100, [("X", ⟨0, 100⟩)]⟩), ("B", ⟨350, [("X", ⟨0, 300⟩), ("Y", ⟨0, 50⟩)]⟩)],
   [("X", ⟨.str "X", ["A", "B"], 0, 400⟩), ("Y", ⟨.str "Y", ["B"], 0, 50⟩)]⟩

/-- A conforming index whose only selected entity has total value 0 while
its asset has a selected holder. -/
def zeroIdx : Index :=
  ⟨[("A", ⟨0, [("X", ⟨0, 0⟩)]⟩)], [("X", ⟨.str "X", ["A"], 0, 0⟩)]⟩

/-- A conforming index carrying a negative holding, so that the weights of
asset X sum to −200 < 0. -/
def negWeightIdx : Index :=
  ⟨[("A", ⟨100, [("X", ⟨0, 100⟩)]⟩), ("B", ⟨-300, [("X", ⟨0, -300⟩)]⟩)],
   [("X", ⟨.str "X", ["A", "B"], 0, -200⟩)]⟩

/-- A raw record carrying negative `quantity` and `value_usd`. -/
def rawNeg : List (String × PyVal) :=
  [("E", .dict [("assets",
    .dict [("X", .dict [("quantity", .num (-3)), ("value_usd", .num (-5))])])])]

/-- A raw record carrying a non-numeric `quantity`. -/
def rawStr : List (String × PyVal) :=
  [("E", .dict [("assets",
    .dict [("X", .dict [("quantity", .str "many"), ("value_usd", .num 5)])])])]

/-- A raw input whose first record is not a mapping while the second is
well-formed. -/
def rawMalformed : List (String × PyVal) :=
  [("A", .str "oops"),
   ("B", .dict [("assets", .dict [("X", .dict [("value_usd", .num 10)])])])]

/-- Two entities reporting the same symbol X under different display
names. -/
def rawNames : List (String × PyVal) :=
  [("N1", .dict [("assets", .dict
     [("X", .dict [("name", .str "CoinA"), ("value_usd", .num 1)])])]),
   ("N2", .dict [("assets", .dict
     [("X", .dict [("name", .str "CoinB"), ("value_usd", .num 2)])])])]

/-- The index `process_market_maker_data` produces from `rawNames`. -/
def idxNames : Index :=
  ⟨[("N1", ⟨1, [("X", ⟨0, 1⟩)]⟩), ("N2", ⟨2, [("X", ⟨0, 2⟩)]⟩)],
   [("X", ⟨.str "CoinA", ["N1", "N2"], 0, 3⟩)]⟩

/-- `nameOr o alt`: the display name of an existing asset node, else `alt`
(used to state how lines 718-728 fix an asset's name at first sight). -/
def nameOr (o : Option AssetNode) (alt : Option PyVal) : Option PyVal :=
  match o with
  | some a => some a.name
  | none => alt

/-- The scene of a successful layout (an empty placeholder otherwise);
lets a concrete rendering be named without carrying the `Except` wrapper. -/
def sceneOf : Except String Scene → Scene
  | .ok s => s
  | .error _ => ⟨[], [], [], [], (0, 0)⟩

/-! ## Theorems -/

/-! ### Association-list lemmas -/

theorem lookupA_eq_some_mem {α : Type} {k : String} {v : α}
    {l : List (String × α)} (h : lookupA k l = some v) : (k, v) ∈ l := by
  induction l with
  | nil => simp [lookupA] at h
  | cons p rest ih =>
    obtain ⟨pk, pv⟩ := p
    by_cases hk : pk = k
    · subst hk
      simp only [lookupA, if_pos] at h
      cases h
      exact List.mem_cons_self _ _
    · simp only [lookupA, hk, if_neg, not_false_iff] at h
      exact List.mem_cons_of_mem _ (ih h)

theorem lookupA_eq_none_iff {α : Type} {k : String} {l : List (String × α)} :
    lookupA k l = none ↔ k ∉ l.map Prod.fst := by
  induction l with
  | nil => simp [lookupA]
  | cons p rest ih =>
    by_cases hk : p.1 = k
    · simp [lookupA, hk]
    · simp [lookupA, hk, ih, Ne.symm hk]

theorem lookupA_isSome_of_mem {α : Type} {k : String} {l : List (String × α)}
    (h : k ∈ l.map Prod.fst) : (lookupA k l).isSome = true := by
  cases hl : lookupA k l with
  | none => exact absurd (lookupA_eq_none_iff.mp hl) (by simpa using h)
  | some v => rfl

theorem lookupA_of_mem_of_nodup {α : Type} {k : String} {v : α}
    {l : List (String × α)} (hnd : (l.map Prod.fst).Nodup) (h : (k, v) ∈ l) :
    lookupA k l = some v := by
  induction l with
  | nil => simp at h
  | cons p rest ih =>
    rcases List.mem_cons.mp h with h1 | h1
    · rw [← h1]
      simp [lookupA]
    · have hk : p.1 ≠ k := by
        intro he
        have : k ∈ rest.map Prod.fst := List.mem_map.mpr ⟨(k, v), h1, rfl⟩
        simp only [List.map_cons, List.nodup_cons] at hnd
        exact hnd.1 (he ▸ this)
      simp only [List.map_cons, List.nodup_cons] at hnd
      simp [lookupA, hk, ih hnd.2 h1]

theorem lookupA_append {α : Type} {k : String} {l₁ l₂ : List (String × α)} :
    lookupA k (l₁ ++ l₂) =
      match lookupA k l₁ with
      | some v => some v
      | none => lookupA k l₂ := by
  induction l₁ with
  | nil => simp [lookupA]
  | cons p rest ih =>
    by_cases hk : p.1 = k
    · simp [lookupA, hk]
    · simp [lookupA, hk, ih]

theorem lookupA_perm {α : Type} {k : String} {l l' : List (String × α)}
    (hp : l.Perm l') (hnd : (l.map Prod.fst).Nodup) :
    lookupA k l = lookupA k l' := by
  have hnd' : (l'.map Prod.fst).Nodup := (hp.map Prod.fst).nodup_iff.mp hnd
  cases hl : lookupA k l with
  | some v =>
    exact (lookupA_of_mem_of_nodup hnd' (hp.mem_iff.mp (lookupA_eq_some_mem hl))).symm
  | none =>
    cases hl' : lookupA k l' with
    | none => rfl
    | some v =>
      have : (k, v) ∈ l := hp.mem_iff.mpr (lookupA_eq_some_mem hl')
      have : k ∈ l.map Prod.fst := List.mem_map.mpr ⟨(k, v), this, rfl⟩
      exact absurd (lookupA_eq_none_iff.mp hl) (fun hc => hc this)

theorem setA_of_not_mem {α : Type} {k : String} {v : α} {l : List (String × α)}
    (h : k ∉ l.map Prod.fst) : setA k v l = l ++ [(k, v)] := by
  induction l with
  | nil => simp [setA]
  | cons p rest ih =>
    simp only [List.map_cons, List.mem_cons, not_or] at h
    simp [setA, Ne.symm h.1, ih h.2]

theorem map_fst_modifyA {α : Type} {k : String} {f : α → α}
    {l : List (String × α)} : (modifyA k f l).map Prod.fst = l.map Prod.fst := by
  induction l with
  | nil => simp [modifyA]
  | cons p rest ih =>
    by_cases hk : p.1 = k
    · simp [modifyA, hk]
    · simp [modifyA, hk, ih]

theorem lookupA_modifyA_self {α : Type} {k : String} {f : α → α}
    {l : List (String × α)} :
    lookupA k (modifyA k f l) = (lookupA k l).map f := by
  induction l with
  | nil => simp [modifyA, lookupA]
  | cons p rest ih =>
    by_cases hk : p.1 = k
    · simp [modifyA, lookupA, hk]
    · simp [modifyA, lookupA, hk, ih]

theorem lookupA_modifyA_ne {α : Type} {k k' : String} {f : α → α}
    {l : List (String × α)} (h : k' ≠ k) :
    lookupA k' (modifyA k f l) = lookupA k' l := by
  induction l with
  | nil => simp [modifyA]
  | cons p rest ih =>
    by_cases hk : p.1 = k
    · simp [modifyA, lookupA, hk, Ne.symm h, ih]
    · by_cases hk' : p.1 = k'
      · simp [modifyA, lookupA, hk, hk', h, ih]
      · simp [modifyA, lookupA, hk, hk', ih]

theorem modifyA_of_not_mem {α : Type} {k : String} {f : α → α}
    {l : List (String × α)} (h : k ∉ l.map Prod.fst) : modifyA k f l = l := by
  induction l with
  | nil => simp [modifyA]
  | cons p rest ih =>
    simp only [List.map_cons, List.mem_cons, not_or] at h
    simp [modifyA, Ne.symm h.1, ih h.2]

/-! ### Stable-descending-sort lemmas -/

theorem insertDesc_perm {α β : Type} [LinearOrder β] (key : α → β) (x : α)
    (l : List α) : (insertDesc key x l).Perm (x :: l) := by
  induction l with
  | nil => simp [insertDesc]
  | cons y ys ih =>
    by_cases h : key y < key x
    · simp [insertDesc, h]
    · rw [insertDesc, if_neg h]
      exact (List.Perm.cons y ih).trans (List.Perm.swap x y ys)

theorem pySortDesc_perm {α β : Type} [LinearOrder β] (key : α → β)
    (l : List α) : (pySortDesc key l).Perm l := by
  suffices h : ∀ (l acc : List α),
      (l.foldl (fun acc x => insertDesc key x acc) acc).Perm (acc ++ l) by
    simpa using h l []
  intro l
  induction l with
  | nil => simp
  | cons x xs ih =>
    intro acc
    rw [List.foldl_cons]
    exact (ih (insertDesc key x acc)).trans
      (((insertDesc_perm key x acc).append_right xs).trans List.perm_middle.symm)

theorem insertDesc_pairwise {α β : Type} [LinearOrder β] {key : α → β} {x : α}
    {l : List α} (h : l.Pairwise (fun a b => key b ≤ key a)) :
    (insertDesc key x l).Pairwise (fun a b => key b ≤ key a) := by
  induction l with
  | nil => simp [insertDesc]
  | cons y ys ih =>
    rw [List.pairwise_cons] at h
    by_cases hlt : key y < key x
    · rw [insertDesc, if_pos hlt]
      refine List.pairwise_cons.mpr ⟨?_, List.pairwise_cons.mpr ⟨h.1, h.2⟩⟩
      intro b hb
      rcases List.mem_cons.mp hb with hb | hb
      · exact hb ▸ le_of_lt hlt
      · exact le_trans (h.1 b hb) (le_of_lt hlt)
    · rw [insertDesc, if_neg hlt]
      refine List.pairwise_cons.mpr ⟨?_, ih h.2⟩
      intro b hb
      rcases List.mem_cons.mp ((insertDesc_perm key x ys).mem_iff.mp hb) with hb | hb
      · exact hb ▸ le_of_not_lt hlt
      · exact h.1 b hb

theorem pySortDesc_pairwise {α β : Type} [LinearOrder β] (key : α → β)
    (l : List α) :
    (pySortDesc key l).Pairwise (fun a b => key b ≤ key a) := by
  suffices h : ∀ (l acc : List α), acc.Pairwise (fun a b => key b ≤ key a) →
      (l.foldl (fun acc x => insertDesc key x acc) acc).Pairwise
        (fun a b => key b ≤ key a) by
    exact h l [] (List.Pairwise.nil)
  intro l
  induction l with
  | nil => intro acc hacc; simpa using hacc
  | cons x xs ih =>
    intro acc hacc
    exact ih (insertDesc key x acc) (insertDesc_pairwise hacc)

theorem insertDesc_filter {α β : Type} [LinearOrder β] {key : α → β} (x : α)
    {l : List α} (hl : l.Pairwise (fun a b => key b ≤ key a)) (v : β) :
    (insertDesc key x l).filter (fun a => decide (key a = v)) =
      l.filter (fun a => decide (key a = v)) ++
        (if key x = v then [x] else []) := by
  induction l with
  | nil =>
    by_cases hv : key x = v <;> simp [insertDesc, hv]
  | cons y ys ih =>
    rw [List.pairwise_cons] at hl
    by_cases hlt : key y < key x
    · rw [insertDesc, if_pos hlt]
      by_cases hv : key x = v
      · have hyv : ¬ (key y = v) := by
          intro hyv
          rw [hyv, hv] at hlt
          exact lt_irrefl v hlt
        have hys : ys.filter (fun a => decide (key a = v)) = [] := by
          rw [List.filter_eq_nil_iff]
          intro b hb
          simp only [decide_eq_true_eq]
          intro hbv
          have h2 : key b < key x := lt_of_le_of_lt (hl.1 b hb) hlt
          rw [hbv, hv] at h2
          exact lt_irrefl v h2
        simp [List.filter_cons, hv, hyv, hys]
      · by_cases hyv : key y = v <;> simp [List.filter_cons, hv, hyv]
    · rw [insertDesc, if_neg hlt]
      by_cases hyv : key y = v <;> simp [List.filter_cons, hyv, ih hl.2]

theorem pySortDesc_filter {α β : Type} [LinearOrder β] (key : α → β)
    (l : List α) (v : β) :
    (pySortDesc key l).filter (fun a => decide (key a = v)) =
      l.filter (fun a => decide (key a = v)) := by
  suffices h : ∀ (l acc : List α), acc.Pairwise (fun a b => key b ≤ key a) →
      (l.foldl (fun acc x => insertDesc key x acc) acc).filter
          (fun a => decide (key a = v)) =
        acc.filter (fun a => decide (key a = v)) ++
          l.filter (fun a => decide (key a = v)) by
    simpa using h l [] List.Pairwise.nil
  intro l
  induction l with
  | nil => intro acc hacc; simp
  | cons x xs ih =>
    intro acc hacc
    rw [List.foldl_cons, ih (insertDesc key x acc) (insertDesc_pairwise hacc),
      insertDesc_filter x hacc v, List.filter_cons]
    by_cases hv : key x = v
    · rw [if_pos hv, if_pos (by simpa using hv)]
      simp
    · rw [if_neg hv, if_neg (by simpa using hv)]
      simp

/-! ### `Except` fold lemmas -/

theorem exMapM_ok_mem {α β : Type} {f : α → Except String β} :
    ∀ {l : List α} {bs : List β}, exMapM f l = .ok bs →
      ∀ b ∈ bs, ∃ a ∈ l, f a = .ok b := by
  intro l
  induction l with
  | nil =>
    intro bs h b hb
    simp only [exMapM] at h
    cases h
    simp at hb
  | cons a l ih =>
    intro bs h b hb
    simp only [exMapM] at h
    cases ha : f a with
    | error e => rw [ha] at h; cases h
    | ok b0 =>
      rw [ha] at h
      cases hl : exMapM f l with
      | error e => rw [hl] at h; cases h
      | ok bs0 =>
        rw [hl] at h
        cases h
        rcases List.mem_cons.mp hb with hb | hb
        · exact ⟨a, List.mem_cons_self _ _, hb ▸ ha⟩
        · obtain ⟨a', ha', hfa'⟩ := ih hl b hb
          exact ⟨a', List.mem_cons_of_mem _ ha', hfa'⟩

theorem exMapM_ok_of_all {α β : Type} {f : α → Except String β} :
    ∀ {l : List α}, (∀ a ∈ l, ∃ b, f a = .ok b) →
      ∃ bs, exMapM f l = .ok bs := by
  intro l
  induction l with
  | nil => intro _; exact ⟨[], rfl⟩
  | cons a l ih =>
    intro h
    obtain ⟨b, hb⟩ := h a (List.mem_cons_self _ _)
    obtain ⟨bs, hbs⟩ := ih (fun a' ha' => h a' (List.mem_cons_of_mem _ ha'))
    exact ⟨b :: bs, by simp only [exMapM, hb, hbs]⟩

theorem exFoldlM_ok_of_all {σ α : Type} {f : σ → α → Except String σ} :
    ∀ {l : List α} (s : σ), (∀ s' a, a ∈ l → ∃ s'', f s' a = .ok s'') →
      ∃ out, exFoldlM f s l = .ok out := by
  intro l
  induction l with
  | nil => intro s _; exact ⟨s, rfl⟩
  | cons a l ih =>
    intro s h
    obtain ⟨s', hs'⟩ := h s a (List.mem_cons_self _ _)
    obtain ⟨out, hout⟩ := ih s' (fun s'' a' ha' => h s'' a' (List.mem_cons_of_mem _ ha'))
    exact ⟨out, by simp only [exFoldlM, hs', hout]⟩

theorem exFoldlM_err_of_mem {σ α : Type} {f : σ → α → Except String σ}
    {a : α} :
    ∀ {l : List α} (s : σ), a ∈ l → (∀ s', exErr (f s' a) = true) →
      exErr (exFoldlM f s l) = true := by
  intro l
  induction l with
  | nil => intro s ha _; simp at ha
  | cons x l ih =>
    intro s ha herr
    rcases List.mem_cons.mp ha with hax | hax
    · subst hax
      have := herr s
      cases hfa : f s a with
      | error e => simp [exFoldlM, hfa, exErr]
      | ok s' => rw [hfa] at this; simp [exErr] at this
    · cases hfa : f s x with
      | error e => simp [exFoldlM, hfa, exErr]
      | ok s' =>
        simp only [exFoldlM, hfa]
        exact ih s' hax herr

theorem exFoldlM_invariant {σ α : Type} {f : σ → α → Except String σ}
    {I : σ → Prop} :
    ∀ {l : List α} {s out : σ}, exFoldlM f s l = .ok out →
      (∀ s' a s'', a ∈ l → f s' a = .ok s'' → I s' → I s'') →
      I s → I out := by
  intro l
  induction l with
  | nil =>
    intro s out h _ hI
    simp only [exFoldlM] at h
    cases h
    exact hI
  | cons a l ih =>
    intro s out h hstep hI
    simp only [exFoldlM] at h
    cases hfa : f s a with
    | error e => rw [hfa] at h; cases h
    | ok s' =>
      rw [hfa] at h
      exact ih h (fun s1 a1 s2 ha1 => hstep s1 a1 s2 (List.mem_cons_of_mem _ ha1))
        (hstep s a s' (List.mem_cons_self _ _) hfa hI)

/-! ### Aggregator step characterizations -/

theorem entity_total_value_ok :
    ∀ {items : List (String × PyVal)} {acc T : ℚ},
      exFoldlM
        (fun acc p =>
          match pyGet p.2 "value_usd" (PyVal.num 0) with
          | .error e => .error e
          | .ok v =>
            match pyNum v with
            | .error e => .error e
            | .ok q => .ok (acc + q))
        acc items = .ok T →
      T = acc + (items.map itemValue).sum := by
  intro items
  induction items with
  | nil =>
    intro acc T h
    simp only [exFoldlM] at h
    cases h
    simp
  | cons p rest ih =>
    intro acc T h
    simp only [exFoldlM] at h
    cases hv : pyGet p.2 "value_usd" (PyVal.num 0) with
    | error e => rw [hv] at h; dsimp only at h; simp at h
    | ok v =>
      rw [hv] at h
      dsimp only at h
      cases hq : pyNum v with
      | error e => rw [hq] at h; dsimp only at h; simp at h
      | ok q =>
        rw [hq] at h
        dsimp only at h
        have hrec := ih h
        have hval : itemValue p = q := by
          simp [itemValue, hv, hq]
        rw [hrec]
        simp only [List.map_cons, List.sum_cons, hval]
        ring

theorem entity_total_value_eq_sum {items : List (String × PyVal)} {T : ℚ}
    (h : entity_total_value items = .ok T) : T = (items.map itemValue).sum := by
  have := @entity_total_value_ok items 0 T
    (by simpa [entity_total_value] using h)
  simpa using this

theorem process_asset_ok {e : String} {st : Index} {p : String × PyVal}
    {st' : Index} (h : process_asset e st p = .ok st') :
    ∃ (q v : ℚ) (nameV : PyVal),
      itemValue p = v ∧
      nameV = nameOf p.2 p.1 ∧
      st' = ⟨modifyA e (fun en => { en with assets := setA p.1 ⟨q, v⟩ en.assets })
               st.entities,
             modifyA p.1
               (fun a =>
                 { a with
                     entities := a.entities ++ [e],
                     total_quantity := a.total_quantity + q,
                     total_value := a.total_value + v })
               (if (lookupA p.1 st.assets).isSome then st.assets
                else st.assets ++ [(p.1, ⟨nameV, [], 0, 0⟩)])⟩ := by
  unfold process_asset at h
  cases hqv : pyGet p.2 "quantity" (PyVal.num 0) with
  | error e1 => rw [hqv] at h; dsimp only at h; simp at h
  | ok qv =>
    rw [hqv] at h
    dsimp only at h
    cases hvv : pyGet p.2 "value_usd" (PyVal.num 0) with
    | error e1 => rw [hvv] at h; dsimp only at h; simp at h
    | ok vv =>
      rw [hvv] at h
      dsimp only at h
      cases hq : pyNum qv with
      | error e1 => rw [hq] at h; dsimp only at h; simp at h
      | ok q =>
        rw [hq] at h
        dsimp only at h
        cases hv : pyNum vv with
        | error e1 => rw [hv] at h; dsimp only at h; simp at h
        | ok v =>
          rw [hv] at h
          dsimp only at h
          cases hn : pyGet p.2 "name" (PyVal.str p.1) with
          | error e1 => rw [hn] at h; dsimp only at h; simp at h
          | ok nameV =>
            rw [hn] at h
            dsimp only at h
            refine ⟨q, v, nameV, ?_, ?_, ?_⟩
            · simp only [itemValue, hvv]
              cases vv with
              | num q2 =>
                simp only [pyNum] at hv
                cases hv
                rfl
              | str s2 => simp [pyNum] at hv
              | dict es2 => simp [pyNum] at hv
            · cases hp2 : p.2 with
              | num q2 => rw [hp2] at hqv; simp [pyGet] at hqv
              | str s2 => rw [hp2] at hqv; simp [pyGet] at hqv
              | dict es =>
                rw [hp2] at hn
                simp only [pyGet] at hn
                rw [nameOf]
                exact (Except.ok.inj hn).symm
            · cases h
              by_cases hs : (lookupA p.1 st.assets).isSome = true
              · simp only [hs, if_pos]
              · simp only [hs, if_neg, Bool.false_eq_true, not_false_iff]

theorem process_entity_ok {st : Index} {p : String × PyVal} {st' : Index}
    (h : process_entity st p = .ok st') :
    ∃ T : ℚ,
      T = ((itemsOf p.2).map itemValue).sum ∧
      exFoldlM (process_asset p.1)
        ⟨setA p.1 ⟨T, []⟩ st.entities, st.assets⟩ (itemsOf p.2) = .ok st' := by
  unfold process_entity at h
  cases hga : pyGet p.2 "assets" (PyVal.dict []) with
  | error e1 => rw [hga] at h; dsimp only at h; simp at h
  | ok entity_assets =>
    rw [hga] at h
    dsimp only at h
    cases hd : asDict entity_assets with
    | error e1 => rw [hd] at h; dsimp only at h; simp at h
    | ok items =>
      rw [hd] at h
      dsimp only at h
      cases ht : entity_total_value items with
      | error e1 => rw [ht] at h; dsimp only at h; simp at h
      | ok T =>
        rw [ht] at h
        dsimp only at h
        have hitems : itemsOf p.2 = items := by
          cases hp2 : p.2 with
          | num q => rw [hp2] at hga; simp [pyGet] at hga
          | str s => rw [hp2] at hga; simp [pyGet] at hga
          | dict es =>
            rw [hp2] at hga
            simp only [pyGet] at hga
            cases hea : entity_assets with
            | num q => rw [hea] at hd; simp [asDict] at hd
            | str s2 => rw [hea] at hd; simp [asDict] at hd
            | dict es2 =>
              rw [hea] at hd
              simp only [asDict] at hd
              cases hd
              have hga2 : (lookupA "assets" es).getD (PyVal.dict []) = entity_assets :=
                Except.ok.inj hga
              rw [hea] at hga2
              simp only [itemsOf, hga2]
        refine ⟨T, ?_, ?_⟩
        · exact entity_total_value_eq_sum (hitems ▸ ht)
        · rw [hitems]
          exact h

/-! ### Conservation of value through the aggregation -/

theorem map_sum_modifyA_eq {α : Type} {k : String} {f : α → α} {g : α → ℚ}
    (hf : ∀ x, g (f x) = g x) (l : List (String × α)) :
    ((modifyA k f l).map (fun p => g p.2)).sum = (l.map (fun p => g p.2)).sum := by
  induction l with
  | nil => simp [modifyA]
  | cons p rest ih =>
    by_cases hk : p.1 = k
    · simp [modifyA, hk, hf]
    · simp [modifyA, hk, ih]

theorem map_sum_modifyA_add {α : Type} {k : String} {f : α → α} {g : α → ℚ}
    {c : ℚ} (hf : ∀ x, g (f x) = g x + c) :
    ∀ {l : List (String × α)}, k ∈ l.map Prod.fst →
      ((modifyA k f l).map (fun p => g p.2)).sum =
        (l.map (fun p => g p.2)).sum + c := by
  intro l
  induction l with
  | nil => intro hk; simp at hk
  | cons p rest ih =>
    intro hk
    by_cases hpk : p.1 = k
    · simp [modifyA, hpk, hf]
      ring
    · have : k ∈ rest.map Prod.fst := by
        simp only [List.map_cons, List.mem_cons] at hk
        rcases hk with h1 | h1
        · exact absurd h1.symm hpk
        · exact h1
      simp [modifyA, hpk, ih this]
      ring

theorem process_asset_sums {e : String} {st : Index} {p : String × PyVal}
    {st' : Index} (h : process_asset e st p = .ok st') :
    sum_asset_values st' = sum_asset_values st + itemValue p ∧
    sum_entity_values st' = sum_entity_values st ∧
    st'.entities.map Prod.fst = st.entities.map Prod.fst := by
  obtain ⟨q, v, nameV, hval, _, hst⟩ := process_asset_ok h
  subst hst
  refine ⟨?_, ?_, ?_⟩
  · simp only [sum_asset_values]
    by_cases hs : (lookupA p.1 st.assets).isSome = true
    · rw [if_pos hs]
      have hk : p.1 ∈ st.assets.map Prod.fst := by
        by_contra hc
        rw [lookupA_eq_none_iff.mpr hc] at hs
        simp at hs
      rw [@map_sum_modifyA_add _ _ _ AssetNode.total_value v (fun x => rfl) _ hk,
        hval]
    · rw [if_neg hs]
      have hk : p.1 ∈ (st.assets ++ [(p.1, (⟨nameV, [], 0, 0⟩ : AssetNode))]).map Prod.fst := by
        simp
      rw [@map_sum_modifyA_add _ _ _ AssetNode.total_value v (fun x => rfl) _ hk,
        hval]
      simp
  · simp only [sum_entity_values]
    exact @map_sum_modifyA_eq _ e
      (fun en => { en with assets := setA p.1 ⟨q, v⟩ en.assets })
      EntityNode.total_value (fun x => rfl) st.entities
  · exact map_fst_modifyA

theorem exFoldlM_process_asset_sums {e : String} :
    ∀ {items : List (String × PyVal)} {st out : Index},
      exFoldlM (process_asset e) st items = .ok out →
      sum_asset_values out = sum_asset_values st + (items.map itemValue).sum ∧
      sum_entity_values out = sum_entity_values st ∧
      out.entities.map Prod.fst = st.entities.map Prod.fst := by
  intro items
  induction items with
  | nil =>
    intro st out h
    simp only [exFoldlM] at h
    cases h
    simp
  | cons p rest ih =>
    intro st out h
    simp only [exFoldlM] at h
    cases hp : process_asset e st p with
    | error e1 => rw [hp] at h; dsimp only at h; simp at h
    | ok st1 =>
      rw [hp] at h
      dsimp only at h
      obtain ⟨h1, h2, h3⟩ := process_asset_sums hp
      obtain ⟨h4, h5, h6⟩ := ih h
      refine ⟨?_, by rw [h5, h2], by rw [h6, h3]⟩
      rw [h4, h1]
      simp only [List.map_cons, List.sum_cons]
      ring

theorem process_entity_sums {st : Index} {p : String × PyVal} {st' : Index}
    (h : process_entity st p = .ok st')
    (hfresh : p.1 ∉ st.entities.map Prod.fst) :
    sum_asset_values st' - sum_entity_values st' =
      sum_asset_values st - sum_entity_values st ∧
    st'.entities.map Prod.fst = st.entities.map Prod.fst ++ [p.1] := by
  obtain ⟨T, hT, hfold⟩ := process_entity_ok h
  obtain ⟨h1, h2, h3⟩ := exFoldlM_process_asset_sums hfold
  have hset : setA p.1 (⟨T, []⟩ : EntityNode) st.entities =
      st.entities ++ [(p.1, ⟨T, []⟩)] := setA_of_not_mem hfresh
  constructor
  · rw [h1, h2]
    simp only [sum_asset_values, sum_entity_values, hset]
    simp [hT]
  · rw [h3]
    simp [hset]

theorem exFoldlM_process_entity_sums :
    ∀ {raw : List (String × PyVal)} {st out : Index},
      exFoldlM process_entity st raw = .ok out →
      (st.entities.map Prod.fst ++ raw.map Prod.fst).Nodup →
      sum_asset_values out - sum_entity_values out =
        sum_asset_values st - sum_entity_values st := by
  intro raw
  induction raw with
  | nil =>
    intro st out h _
    simp only [exFoldlM] at h
    cases h
    rfl
  | cons p rest ih =>
    intro st out h hnd
    simp only [exFoldlM] at h
    cases hp : process_entity st p with
    | error e1 => rw [hp] at h; dsimp only at h; simp at h
    | ok st1 =>
      rw [hp] at h
      dsimp only at h
      have hfresh : p.1 ∉ st.entities.map Prod.fst := by
        rcases List.nodup_append.mp hnd with ⟨_, _, hdisj⟩
        intro hc
        exact hdisj hc (by simp)
      obtain ⟨h1, h2⟩ := process_entity_sums hp hfresh
      have hnd1 : (st1.entities.map Prod.fst ++ rest.map Prod.fst).Nodup := by
        rw [h2]
        have : st.entities.map Prod.fst ++ [p.1] ++ rest.map Prod.fst =
            st.entities.map Prod.fst ++ (p.1 :: rest.map Prod.fst) := by
          simp
        rw [this]
        simpa using hnd
      rw [ih h hnd1, h1]

theorem sum_asset_values_sort (d : Index) :
    sum_asset_values ⟨d.entities, pySortDesc (fun p => p.2.total_value) d.assets⟩ =
      sum_asset_values d := by
  simp only [sum_asset_values]
  exact List.Perm.sum_eq ((pySortDesc_perm _ d.assets).map _)

theorem process_market_maker_data_ok {raw : List (String × PyVal)} {idx : Index}
    (h : process_market_maker_data raw = .ok idx) :
    ∃ d, process_unsorted raw = .ok d ∧
      idx = ⟨d.entities, pySortDesc (fun p => p.2.total_value) d.assets⟩ := by
  unfold process_market_maker_data at h
  cases hu : process_unsorted raw with
  | error e => rw [hu] at h; dsimp only at h; simp at h
  | ok d =>
    rw [hu] at h
    dsimp only at h
    exact ⟨d, rfl, (Except.ok.inj h).symm⟩

/-- C6: on every raw input with distinct entity names (as any Python dict
input has), the aggregated index conserves value: the asset totals and the
entity totals sum to the same number. -/
theorem conservation_of_value (raw : List (String × PyVal)) (idx : Index)
    (hok : process_market_maker_data raw = .ok idx)
    (hnd : (raw.map Prod.fst).Nodup) :
    sum_asset_values idx = sum_entity_values idx := by
  obtain ⟨d, hu, hidx⟩ := process_market_maker_data_ok hok
  have hfold : exFoldlM process_entity (⟨[], []⟩ : Index) raw = .ok d := hu
  have hbal := exFoldlM_process_entity_sums hfold (by simpa using hnd)
  have hzero : sum_asset_values d - sum_entity_values d = 0 := by
    rw [hbal]
    simp [sum_asset_values, sum_entity_values]
  subst hidx
  have h2 := sum_asset_values_sort d
  have h3 : sum_entity_values
      (⟨d.entities, pySortDesc (fun p => p.2.total_value) d.assets⟩ : Index) =
      sum_entity_values d := rfl
  rw [h2, h3]
  linarith

/-- C6 witness: the spec §8 example conserves value (both sums are 450). -/
theorem conservation_of_value_witness :
    (exRaw.map Prod.fst).Nodup ∧ sum_asset_values exIdx = sum_entity_values exIdx :=
  ⟨by decide, conservation_of_value exRaw exIdx (by with_unfolding_all rfl) (by decide)⟩

/-- C3 counterexample: a negative `value_usd` (−5) and `quantity` (−3) are
stored unchanged, so the produced holding violates `quantity ≥ 0 ∧
value_usd ≥ 0`; and a non-numeric `quantity` is not replaced by 0 — it makes
the whole aggregation raise a `TypeError`, which does propagate to the
caller. -/
theorem negative_value_passthrough_cex :
    (Except.map
        (fun d => (lookupA "E" d.entities).map
          (fun en => (lookupA "X" en.assets).map
            (fun h => (h.quantity, h.value_usd))))
        (process_market_maker_data rawNeg) =
      .ok (some (some ((-3 : ℚ), (-5 : ℚ))))) ∧
    ¬ (0 ≤ (-5 : ℚ)) ∧
    process_market_maker_data rawStr = .error "TypeError" :=
  ⟨rfl, by decide, rfl⟩

/-- C3 amended: the aggregator substitutes 0 only for *missing*
`quantity`/`value_usd` fields; a present numeric value — negative included —
is recorded unchanged in the holding and in the totals. -/
theorem missing_fields_default_zero (q v : ℚ) :
    process_market_maker_data
      [("E", .dict [("assets", .dict
        [("X", .dict [("quantity", .num q), ("value_usd", .num v)])])])] =
      .ok ⟨[("E", ⟨v, [("X", ⟨q, v⟩)]⟩)], [("X", ⟨.str "X", ["E"], q, v⟩)]⟩ ∧
    process_market_maker_data
      [("E", .dict [("assets", .dict [("X", .dict [])])])] =
      .ok ⟨[("E", ⟨0, [("X", ⟨0, 0⟩)]⟩)], [("X", ⟨.str "X", ["E"], 0, 0⟩)]⟩ := by
  constructor
  · have h : process_market_maker_data
        [("E", .dict [("assets", .dict
          [("X", .dict [("quantity", .num q), ("value_usd", .num v)])])])] =
        .ok ⟨[("E", ⟨0 + v, [("X", ⟨q, v⟩)]⟩)],
             [("X", ⟨.str "X", ["E"], 0 + q, 0 + v⟩)]⟩ := rfl
    simpa using h
  · with_unfolding_all rfl

/-- C4 counterexample: when entity A's record is not a mapping, the whole
aggregation raises `AttributeError` — the well-formed entity B's aggregate
is not produced. -/
theorem malformed_record_cex :
    process_market_maker_data rawMalformed = .error "AttributeError" := rfl

/-- C4 amended: one malformed (non-mapping) entity record makes the whole
aggregation raise: no index — hence no other entity's aggregate — is
produced at all. -/
theorem malformed_record_aborts_all (raw : List (String × PyVal))
    (h : ∃ p ∈ raw, p.2.isDict = false) :
    exErr (process_market_maker_data raw) = true := by
  obtain ⟨p, hp, hdict⟩ := h
  have hstep : ∀ st, exErr (process_entity st p) = true := by
    intro st
    unfold process_entity
    cases hp2 : p.2 with
    | num q => simp [pyGet, exErr]
    | str s => simp [pyGet, exErr]
    | dict es => rw [hp2] at hdict; simp [PyVal.isDict] at hdict
  have herr := @exFoldlM_err_of_mem _ _ process_entity _ _
    (⟨[], []⟩ : Index) hp hstep
  unfold process_market_maker_data
  cases hu : process_unsorted raw with
  | error e => dsimp only; simp [exErr]
  | ok d =>
    unfold process_unsorted at hu
    rw [hu] at herr
    simp [exErr] at herr

/-- C4 witness: `rawMalformed` has a non-mapping record and the aggregation
errors on it. -/
theorem malformed_record_aborts_all_witness :
    (∃ p ∈ rawMalformed, p.2.isDict = false) ∧
    exErr (process_market_maker_data rawMalformed) = true :=
  ⟨by decide, malformed_record_aborts_all rawMalformed (by decide)⟩

/-- C2 counterexample: `zeroIdx` conforms to the index invariants, every
selected entity has total value 0 and asset X has a selected holder — and
the layout raises `ZeroDivisionError` (line 923) instead of returning a
scene. -/
theorem create_venn_diagram_zero_div_cex :
    Agg zeroIdx ∧ create_venn_diagram zeroIdx = .error "ZeroDivisionError" :=
  ⟨by with_unfolding_all decide, by with_unfolding_all rfl⟩

/-- C7: the finalized assets are non-increasing by total value; they are a
permutation of the fold result — whose order is first-seen creation order —
and every class of equal totals keeps exactly its first-seen relative order
(stability of the sort of lines 732-737). -/
theorem assets_sorted_desc_stable (raw : List (String × PyVal)) (idx : Index)
    (hok : process_market_maker_data raw = .ok idx) :
    List.Pairwise (fun a b => b.2.total_value ≤ a.2.total_value) idx.assets ∧
    ∀ d, process_unsorted raw = .ok d →
      idx.assets.Perm d.assets ∧
      idx.entities = d.entities ∧
      ∀ v : ℚ, idx.assets.filter (fun p => decide (p.2.total_value = v)) =
        d.assets.filter (fun p => decide (p.2.total_value = v)) := by
  obtain ⟨d0, hu0, hidx⟩ := process_market_maker_data_ok hok
  subst hidx
  refine ⟨pySortDesc_pairwise _ _, ?_⟩
  intro d hu
  rw [hu0] at hu
  cases hu
  exact ⟨pySortDesc_perm _ _, rfl, fun v => pySortDesc_filter _ _ v⟩

/-- C7 witness: on the §8 example the finalized assets are sorted
non-increasing (400 then 50) and the 400-tie class is exactly asset X. -/
theorem assets_sorted_desc_stable_witness :
    List.Pairwise (fun a b => b.2.total_value ≤ a.2.total_value) exIdx.assets ∧
    exIdx.assets.filter (fun p => decide (p.2.total_value = (400 : ℚ))) =
      [("X", ⟨.str "X", ["A", "B"], 0, 400⟩)] := by
  have h := assets_sorted_desc_stable exRaw exIdx (by with_unfolding_all rfl)
  refine ⟨h.1, ?_⟩
  have h2 := (h.2 exIdx (by with_unfolding_all rfl)).2.2 400
  rw [h2]
  with_unfolding_all rfl

theorem lookupA_setA_self {α : Type} {k : String} {v : α}
    {l : List (String × α)} : lookupA k (setA k v l) = some v := by
  induction l with
  | nil => simp [setA, lookupA]
  | cons p rest ih =>
    by_cases hk : p.1 = k
    · simp [setA, lookupA, hk]
    · simp [setA, lookupA, hk, ih]

theorem lookupA_setA_ne {α : Type} {k k' : String} (h : k' ≠ k) {v : α}
    {l : List (String × α)} : lookupA k' (setA k v l) = lookupA k' l := by
  induction l with
  | nil => simp [setA, lookupA, Ne.symm h]
  | cons p rest ih =>
    by_cases hk : p.1 = k
    · simp [setA, lookupA, hk, Ne.symm h, ih]
    · by_cases hk' : p.1 = k'
      · simp [setA, lookupA, hk, hk', h]
      · simp [setA, lookupA, hk, hk', ih]

theorem mem_modifyA_nodup {α : Type} {k : String} {f : α → α} :
    ∀ {l : List (String × α)}, (l.map Prod.fst).Nodup →
      ∀ {p' : String × α}, p' ∈ modifyA k f l →
        (p' ∈ l ∧ p'.1 ≠ k) ∨ ∃ x, (k, x) ∈ l ∧ p' = (k, f x) := by
  intro l
  induction l with
  | nil => intro _ p' h; simp [modifyA] at h
  | cons p rest ih =>
    intro hnd p' h
    simp only [List.map_cons, List.nodup_cons] at hnd
    by_cases hk : p.1 = k
    · rw [modifyA, if_pos hk] at h
      rcases List.mem_cons.mp h with h1 | h1
      · right
        refine ⟨p.2, ?_, ?_⟩
        · rw [← hk]
          exact List.mem_cons_self _ _
        · rw [h1, hk]
      · left
        refine ⟨List.mem_cons_of_mem _ h1, ?_⟩
        intro hc
        rw [← hk] at hc
        exact hnd.1 (hc ▸ List.mem_map.mpr ⟨p', h1, rfl⟩)
    · rw [modifyA, if_neg hk] at h
      rcases List.mem_cons.mp h with h1 | h1
      · exact Or.inl ⟨h1 ▸ List.mem_cons_self _ _, h1 ▸ hk⟩
      · rcases ih hnd.2 h1 with ⟨h2, h3⟩ | ⟨x, h2, h3⟩
        · exact Or.inl ⟨List.mem_cons_of_mem _ h2, h3⟩
        · exact Or.inr ⟨x, List.mem_cons_of_mem _ h2, h3⟩

theorem entityNode_eq {d : Index} {e : String} {en : EntityNode}
    (h : lookupA e d.entities = some en) : entityNode d e = en := by
  simp [entityNode, h]

theorem assetNode_eq {d : Index} {s : String} {a : AssetNode}
    (h : lookupA s d.assets = some a) : assetNode d s = a := by
  simp [assetNode, h]

theorem lookupA_append_left {α : Type} {k : String} {l₁ l₂ : List (String × α)}
    {v : α} (h : lookupA k l₁ = some v) : lookupA k (l₁ ++ l₂) = some v := by
  rw [lookupA_append, h]

theorem lookupA_append_none {α : Type} {k : String} {l₁ l₂ : List (String × α)}
    (h : lookupA k l₁ = none) : lookupA k (l₁ ++ l₂) = lookupA k l₂ := by
  rw [lookupA_append, h]

/-- Appending a freshly created (empty) asset node preserves `MidInv`. -/
theorem midinv_append_new_asset {e s : String} {nameV : PyVal} {d : Index}
    (hinv : MidInv e d) (hs : lookupA s d.assets = none) :
    MidInv e ⟨d.entities, d.assets ++ [(s, ⟨nameV, [], 0, 0⟩)]⟩ := by
  obtain ⟨hndE, hndA, hHnd, hHsub, hSymA, hSymE, hTot, hATot⟩ := hinv
  have hsk : s ∉ d.assets.map Prod.fst := lookupA_eq_none_iff.mp hs
  refine ⟨hndE, ?_, ?_, ?_, ?_, ?_, hTot, ?_⟩
  · simp only [List.map_append, List.map_cons, List.map_nil]
    rw [List.nodup_append]
    exact ⟨hndA, List.nodup_singleton s, by simpa using hsk⟩
  · intro p' hp'
    rcases List.mem_append.mp hp' with h1 | h1
    · exact hHnd p' h1
    · simp at h1
      subst h1
      exact List.nodup_nil
  · intro p' hp' e' he'
    rcases List.mem_append.mp hp' with h1 | h1
    · exact hHsub p' h1 e' he'
    · simp at h1
      subst h1
      simp at he'
  · intro p' hp' e' he'
    rcases List.mem_append.mp hp' with h1 | h1
    · exact hSymA p' h1 e' he'
    · simp at h1
      subst h1
      simp at he'
  · intro p' hp' hold hh
    have h0 := hSymE p' hp' hold hh
    have hsome : ∃ a, lookupA hold.1 d.assets = some a := by
      cases hl : lookupA hold.1 d.assets with
      | none =>
        rw [show assetNode d hold.1 = ⟨.str "", [], 0, 0⟩ from by
          simp [assetNode, hl]] at h0
        simp at h0
      | some a => exact ⟨a, rfl⟩
    obtain ⟨a, ha⟩ := hsome
    have : assetNode ⟨d.entities, d.assets ++ [(s, ⟨nameV, [], 0, 0⟩)]⟩ hold.1 = a := by
      simp only [assetNode]
      rw [lookupA_append_left ha, Option.getD_some]
    rw [this]
    rw [assetNode_eq ha] at h0
    exact h0
  · intro p' hp'
    rcases List.mem_append.mp hp' with h1 | h1
    · have h0 := hATot p' h1
      rw [h0]
      refine congrArg List.sum (List.map_congr_left ?_)
      intro e' _
      rfl
    · simp at h1
      subst h1
      simp

theorem lookupA_append_single_ne {α : Type} {k s : String} (h : k ≠ s)
    {x : α} {l : List (String × α)} :
    lookupA k (l ++ [(s, x)]) = lookupA k l := by
  rw [lookupA_append]
  cases hx : lookupA k l with
  | none => simp [lookupA, Ne.symm h]
  | some v => rfl

/-- The in-place update of one holding — store `(q, v)` for entity `e`,
append `e` to asset `s`'s holders, bump the asset totals — preserves
`MidInv`, provided `s` already has a node and `e` does not hold `s` yet. -/
theorem process_asset_midinv_core {e s : String} {q v : ℚ} {d : Index}
    {en : EntityNode} {a₀ : AssetNode}
    (hinv : MidInv e d)
    (hen : lookupA e d.entities = some en)
    (hfresh : s ∉ en.assets.map Prod.fst)
    (ha₀ : lookupA s d.assets = some a₀) :
    MidInv e
      ⟨modifyA e (fun en' => { en' with assets := setA s ⟨q, v⟩ en'.assets })
         d.entities,
       modifyA s
         (fun a =>
           { a with
               entities := a.entities ++ [e],
               total_quantity := a.total_quantity + q,
               total_value := a.total_value + v }) d.assets⟩ := by
  obtain ⟨hndE, hndA, hHnd, hHsub, hSymA, hSymE, hTot, hATot⟩ := hinv
  set f1 : EntityNode → EntityNode :=
    fun en' => { en' with assets := setA s ⟨q, v⟩ en'.assets } with hf1
  set f2 : AssetNode → AssetNode :=
    fun a =>
      { a with
          entities := a.entities ++ [e],
          total_quantity := a.total_quantity + q,
          total_value := a.total_value + v } with hf2
  have hsetA : setA s (⟨q, v⟩ : Holding) en.assets = en.assets ++ [(s, ⟨q, v⟩)] :=
    setA_of_not_mem hfresh
  have henm : (e, en) ∈ d.entities := lookupA_eq_some_mem hen
  have ha₀m : (s, a₀) ∈ d.assets := lookupA_eq_some_mem ha₀
  have hememb : e ∈ d.entities.map Prod.fst := List.mem_map.mpr ⟨(e, en), henm, rfl⟩
  have hfreshl : lookupA s en.assets = none := lookupA_eq_none_iff.mpr hfresh
  have hE_e : lookupA e (modifyA e f1 d.entities) =
      some ⟨en.total_value, en.assets ++ [(s, ⟨q, v⟩)]⟩ := by
    rw [lookupA_modifyA_self, hen, Option.map_some']
    show some (f1 en) = _
    rw [hf1]
    dsimp only
    rw [hsetA]
  have hE_ne : ∀ e' : String, e' ≠ e →
      lookupA e' (modifyA e f1 d.entities) = lookupA e' d.entities :=
    fun e' h => lookupA_modifyA_ne h
  have hA_s : lookupA s (modifyA s f2 d.assets) =
      some ⟨a₀.name, a₀.entities ++ [e], a₀.total_quantity + q,
            a₀.total_value + v⟩ := by
    rw [lookupA_modifyA_self, ha₀, Option.map_some']
  have hA_ne : ∀ k : String, k ≠ s →
      lookupA k (modifyA s f2 d.assets) = lookupA k d.assets :=
    fun k h => lookupA_modifyA_ne h
  have hndE' : ((modifyA e f1 d.entities).map Prod.fst).Nodup := by
    rw [map_fst_modifyA]; exact hndE
  have hndA' : ((modifyA s f2 d.assets).map Prod.fst).Nodup := by
    rw [map_fst_modifyA]; exact hndA
  have h_e_not_holder : ∀ {k : String} {a : AssetNode},
      lookupA k d.assets = some a → e ∈ a.entities →
        k ∈ en.assets.map Prod.fst := by
    intro k a hka he'
    have h0 := hSymA (k, a) (lookupA_eq_some_mem hka) e he'
    rw [entityNode_eq hen] at h0
    cases hx : lookupA k en.assets with
    | none => rw [hx] at h0; simp at h0
    | some h2 => exact List.mem_map.mpr ⟨(k, h2), lookupA_eq_some_mem hx, rfl⟩
  have h_e_na : e ∉ a₀.entities := fun hc => hfresh (h_e_not_holder ha₀ hc)
  have hNodeE : entityNode ⟨modifyA e f1 d.entities, modifyA s f2 d.assets⟩ e =
      ⟨en.total_value, en.assets ++ [(s, ⟨q, v⟩)]⟩ := by
    simp [entityNode, hE_e]
  have hNodeO : ∀ e' : String, e' ≠ e →
      entityNode ⟨modifyA e f1 d.entities, modifyA s f2 d.assets⟩ e' =
        entityNode d e' := by
    intro e' h
    simp [entityNode, hE_ne e' h]
  have hANs : assetNode ⟨modifyA e f1 d.entities, modifyA s f2 d.assets⟩ s =
      ⟨a₀.name, a₀.entities ++ [e], a₀.total_quantity + q, a₀.total_value + v⟩ := by
    simp [assetNode, hA_s]
  have hANo : ∀ k : String, k ≠ s →
      assetNode ⟨modifyA e f1 d.entities, modifyA s f2 d.assets⟩ k =
        assetNode d k := by
    intro k h
    simp [assetNode, hA_ne k h]
  have hW_o : ∀ (e' k : String), e' ≠ e →
      holderWeight ⟨modifyA e f1 d.entities, modifyA s f2 d.assets⟩ e' k =
        holderWeight d e' k := by
    intro e' k h
    simp [holderWeight, hNodeO e' h]
  have hW_e : ∀ k : String, k ≠ s →
      holderWeight ⟨modifyA e f1 d.entities, modifyA s f2 d.assets⟩ e k =
        holderWeight d e k := by
    intro k h
    simp only [holderWeight, hNodeE, entityNode_eq hen]
    rw [lookupA_append_single_ne h]
  have hW_es :
      holderWeight ⟨modifyA e f1 d.entities, modifyA s f2 d.assets⟩ e s = v := by
    simp only [holderWeight, hNodeE]
    rw [lookupA_append_none hfreshl]
    simp [lookupA]
  refine ⟨?_, ?_, ?_, ?_, ?_, ?_, ?_, ?_⟩
  · exact hndE'
  · exact hndA'
  · intro p' hp'
    have hlp := lookupA_of_mem_of_nodup hndA' hp'
    by_cases hk : p'.1 = s
    · rw [hk, hA_s] at hlp
      have hp2 : p'.2 = ⟨a₀.name, a₀.entities ++ [e], a₀.total_quantity + q,
          a₀.total_value + v⟩ := (Option.some.inj hlp).symm
      rw [hp2]
      dsimp only
      rw [List.nodup_append]
      refine ⟨hHnd (s, a₀) ha₀m, List.nodup_singleton e, ?_⟩
      intro x hx hxe
      simp only [List.mem_singleton] at hxe
      subst hxe
      exact h_e_na hx
    · rw [hA_ne p'.1 hk] at hlp
      exact hHnd (p'.1, p'.2) (lookupA_eq_some_mem hlp)
  · intro p' hp' e' he'
    show e' ∈ (modifyA e f1 d.entities).map Prod.fst
    rw [map_fst_modifyA]
    have hlp := lookupA_of_mem_of_nodup hndA' hp'
    by_cases hk : p'.1 = s
    · rw [hk, hA_s] at hlp
      have hp2 : p'.2 = ⟨a₀.name, a₀.entities ++ [e], a₀.total_quantity + q,
          a₀.total_value + v⟩ := (Option.some.inj hlp).symm
      rw [hp2] at he'
      dsimp only at he'
      rcases List.mem_append.mp he' with h1 | h1
      · exact hHsub (s, a₀) ha₀m e' h1
      · simp only [List.mem_singleton] at h1
        subst h1
        exact hememb
    · rw [hA_ne p'.1 hk] at hlp
      exact hHsub (p'.1, p'.2) (lookupA_eq_some_mem hlp) e' he'
  · intro p' hp' e' he'
    have hlp := lookupA_of_mem_of_nodup hndA' hp'
    by_cases hk : p'.1 = s
    · rw [hk, hA_s] at hlp
      have hp2 : p'.2 = ⟨a₀.name, a₀.entities ++ [e], a₀.total_quantity + q,
          a₀.total_value + v⟩ := (Option.some.inj hlp).symm
      rw [hp2] at he'
      dsimp only at he'
      rcases List.mem_append.mp he' with h1 | h1
      · have hne : e' ≠ e := fun hc => h_e_na (hc ▸ h1)
        rw [hk, hNodeO e' hne]
        exact hSymA (s, a₀) ha₀m e' h1
      · simp only [List.mem_singleton] at h1
        subst h1
        rw [hk, hNodeE]
        dsimp only
        rw [lookupA_append_none hfreshl]
        simp [lookupA]
    · rw [hA_ne p'.1 hk] at hlp
      have hmem := lookupA_eq_some_mem hlp
      by_cases hee : e' = e
      · subst hee
        rw [hNodeE]
        dsimp only
        have h0 := hSymA (p'.1, p'.2) hmem e' he'
        rw [entityNode_eq hen] at h0
        cases hx : lookupA p'.1 en.assets with
        | none => rw [hx] at h0; simp at h0
        | some h2 => rw [lookupA_append_left hx]; rfl
      · rw [hNodeO e' hee]
        exact hSymA (p'.1, p'.2) hmem e' he'
  · intro p' hp' hold hh
    have hlp := lookupA_of_mem_of_nodup hndE' hp'
    by_cases hk : p'.1 = e
    · rw [hk, hE_e] at hlp
      have hp2 : p'.2 = ⟨en.total_value, en.assets ++ [(s, ⟨q, v⟩)]⟩ :=
        (Option.some.inj hlp).symm
      rw [hp2] at hh
      dsimp only at hh
      rcases List.mem_append.mp hh with h1 | h1
      · have hks : hold.1 ≠ s := by
          intro hc
          exact hfresh (hc ▸ List.mem_map.mpr ⟨hold, h1, rfl⟩)
        rw [hk, hANo hold.1 hks]
        exact hSymE (e, en) henm hold h1
      · simp only [List.mem_singleton] at h1
        subst h1
        rw [hk, hANs]
        dsimp only
        exact List.mem_append_right _ (List.mem_singleton.mpr rfl)
    · rw [hE_ne p'.1 hk] at hlp
      have hmem := lookupA_eq_some_mem hlp
      have h0 := hSymE (p'.1, p'.2) hmem hold hh
      by_cases hks : hold.1 = s
      · rw [hks] at h0 ⊢
        rw [assetNode_eq ha₀] at h0
        rw [hANs]
        dsimp only
        exact List.mem_append_left _ h0
      · rw [hANo hold.1 hks]
        exact h0
  · intro p' hp' hne
    have hlp := lookupA_of_mem_of_nodup hndE' hp'
    rw [hE_ne p'.1 hne] at hlp
    exact hTot (p'.1, p'.2) (lookupA_eq_some_mem hlp) hne
  · intro p' hp'
    have hlp := lookupA_of_mem_of_nodup hndA' hp'
    by_cases hk : p'.1 = s
    · rw [hk, hA_s] at hlp
      have hp2 : p'.2 = ⟨a₀.name, a₀.entities ++ [e], a₀.total_quantity + q,
          a₀.total_value + v⟩ := (Option.some.inj hlp).symm
      rw [hp2, hk]
      dsimp only
      rw [List.map_append, List.sum_append]
      have hmap : a₀.entities.map
            (fun e' => holderWeight
              ⟨modifyA e f1 d.entities, modifyA s f2 d.assets⟩ e' s) =
          a₀.entities.map (fun e' => holderWeight d e' s) := by
        refine List.map_congr_left ?_
        intro e' he'
        exact hW_o e' s (fun hc => h_e_na (hc ▸ he'))
      rw [hmap]
      have h0 := hATot (s, a₀) ha₀m
      dsimp only at h0
      rw [← h0]
      simp [hW_es]
    · rw [hA_ne p'.1 hk] at hlp
      have hmem := lookupA_eq_some_mem hlp
      have h0 := hATot (p'.1, p'.2) hmem
      dsimp only at h0
      rw [h0]
      refine congrArg List.sum (List.map_congr_left ?_)
      intro e' he'
      by_cases hee : e' = e
      · subst hee
        exact (hW_e p'.1 hk).symm
      · exact (hW_o e' p'.1 hee).symm

/-- One `process_asset` step preserves `MidInv` and appends the holding to
`e`'s node. -/
theorem process_asset_midinv {e : String} {st st' : Index} {p : String × PyVal}
    {en : EntityNode}
    (hok : process_asset e st p = .ok st')
    (hinv : MidInv e st)
    (hen : lookupA e st.entities = some en)
    (hfresh : p.1 ∉ en.assets.map Prod.fst) :
    MidInv e st' ∧
    st'.entities.map Prod.fst = st.entities.map Prod.fst ∧
    ∃ q v : ℚ,
      lookupA e st'.entities =
        some ⟨en.total_value, en.assets ++ [(p.1, ⟨q, v⟩)]⟩ ∧
      itemValue p = v := by
  obtain ⟨q, v, nameV, hval, _, hst⟩ := process_asset_ok hok
  subst hst
  refine ⟨?_, ?_, q, v, ?_, hval⟩
  · by_cases hps : (lookupA p.1 st.assets).isSome = true
    · obtain ⟨a₀, ha₀⟩ : ∃ a₀, lookupA p.1 st.assets = some a₀ := by
        cases hx : lookupA p.1 st.assets with
        | none => rw [hx] at hps; simp at hps
        | some a => exact ⟨a, rfl⟩
      have hcore := @process_asset_midinv_core _ _ q v _ _ _ hinv hen hfresh ha₀
      simp only [hps, if_true]
      exact hcore
    · have hnone : lookupA p.1 st.assets = none := by
        cases hx : lookupA p.1 st.assets with
        | none => rfl
        | some a => rw [hx] at hps; simp at hps
      have hinv2 := @midinv_append_new_asset _ _ nameV _ hinv hnone
      have hen2 : lookupA e
          (⟨st.entities, st.assets ++ [(p.1, ⟨nameV, [], 0, 0⟩)]⟩ : Index).entities =
          some en := hen
      have ha₀2 : lookupA p.1
          (⟨st.entities, st.assets ++ [(p.1, ⟨nameV, [], 0, 0⟩)]⟩ : Index).assets =
          some ⟨nameV, [], 0, 0⟩ := by
        dsimp only
        rw [lookupA_append_none hnone]
        simp [lookupA]
      have hcore := @process_asset_midinv_core _ _ q v _ _ _ hinv2 hen2 hfresh ha₀2
      simp only [hnone, Option.isSome_none, Bool.false_eq_true, if_false]
      exact hcore
  · dsimp only
    exact map_fst_modifyA
  · dsimp only
    rw [lookupA_modifyA_self, hen, Option.map_some']
    have hsetA : setA p.1 (⟨q, v⟩ : Holding) en.assets =
        en.assets ++ [(p.1, ⟨q, v⟩)] := setA_of_not_mem hfresh
    show some (⟨en.total_value, setA p.1 ⟨q, v⟩ en.assets⟩ : EntityNode) = _
    rw [hsetA]

/-- The whole per-asset fold of one entity's record preserves `MidInv` and
builds `e`'s holdings list item by item. -/
theorem exFoldlM_process_asset_midinv {e : String} :
    ∀ {items : List (String × PyVal)} {st out : Index} {en : EntityNode},
      exFoldlM (process_asset e) st items = .ok out →
      MidInv e st →
      lookupA e st.entities = some en →
      (en.assets.map Prod.fst ++ items.map Prod.fst).Nodup →
      MidInv e out ∧
      out.entities.map Prod.fst = st.entities.map Prod.fst ∧
      ∃ en' : EntityNode,
        lookupA e out.entities = some en' ∧
        en'.total_value = en.total_value ∧
        holdingsSum en' = holdingsSum en + (items.map itemValue).sum := by
  intro items
  induction items with
  | nil =>
    intro st out en h hinv hen hnd
    simp only [exFoldlM] at h
    cases h
    exact ⟨hinv, rfl, en, hen, rfl, by simp⟩
  | cons p rest ih =>
    intro st out en h hinv hen hnd
    simp only [exFoldlM] at h
    cases hp : process_asset e st p with
    | error e1 => rw [hp] at h; dsimp only at h; simp at h
    | ok st1 =>
      rw [hp] at h
      dsimp only at h
      have hfresh : p.1 ∉ en.assets.map Prod.fst := by
        rcases List.nodup_append.mp hnd with ⟨_, _, hdisj⟩
        intro hc
        exact hdisj hc (by simp)
      obtain ⟨hinv1, hkeys1, q, v, hen1, hval⟩ :=
        process_asset_midinv hp hinv hen hfresh
      have hnd1 : ((en.assets ++ [(p.1, (⟨q, v⟩ : Holding))]).map Prod.fst ++
          rest.map Prod.fst).Nodup := by
        simp only [List.map_append, List.map_cons, List.map_nil]
        have heq : en.assets.map Prod.fst ++ [p.1] ++ rest.map Prod.fst =
            en.assets.map Prod.fst ++ (p.1 :: rest.map Prod.fst) := by simp
        rw [heq]
        simpa using hnd
      obtain ⟨hinv2, hkeys2, en', hen', htv, hsum⟩ := ih h hinv1 hen1 hnd1
      refine ⟨hinv2, by rw [hkeys2, hkeys1], en', hen', by simpa using htv, ?_⟩
      rw [hsum]
      simp only [holdingsSum, List.map_append, List.sum_append, List.map_cons,
        List.sum_cons, List.map_nil, List.sum_nil]
      rw [hval]
      ring

/-- Appending a fresh entity node (with its final total and no holdings yet)
to an index satisfying `Agg` gives `MidInv` for that entity. -/
theorem agg_append_entity {e : String} {T : ℚ} {d : Index}
    (hagg : Agg d) (hfresh : e ∉ d.entities.map Prod.fst) :
    MidInv e ⟨d.entities ++ [(e, ⟨T, []⟩)], d.assets⟩ := by
  obtain ⟨hndE, hndA, hHnd, hHsub, hSymA, hSymE, hTot, hATot⟩ := hagg
  have hEnt : ∀ e' : String, e' ∈ d.entities.map Prod.fst →
      lookupA e' (d.entities ++ [(e, (⟨T, []⟩ : EntityNode))]) =
        lookupA e' d.entities := by
    intro e' he'
    cases hx : lookupA e' d.entities with
    | none => exact absurd (lookupA_eq_none_iff.mp hx) (fun hc => hc he')
    | some en => exact lookupA_append_left hx
  have hNode : ∀ e' : String, e' ∈ d.entities.map Prod.fst →
      entityNode ⟨d.entities ++ [(e, ⟨T, []⟩)], d.assets⟩ e' = entityNode d e' := by
    intro e' he'
    simp only [entityNode]
    rw [hEnt e' he']
  refine ⟨?_, hndA, hHnd, ?_, ?_, ?_, ?_, ?_⟩
  · simp only [List.map_append, List.map_cons, List.map_nil]
    rw [List.nodup_append]
    exact ⟨hndE, List.nodup_singleton e, by simpa using hfresh⟩
  · intro p hp e' he'
    simp only [List.map_append, List.map_cons, List.map_nil]
    exact List.mem_append_left _ (hHsub p hp e' he')
  · intro p hp e' he'
    rw [hNode e' (hHsub p hp e' he')]
    exact hSymA p hp e' he'
  · intro p hp hold hh
    rcases List.mem_append.mp hp with h1 | h1
    · exact hSymE p h1 hold hh
    · simp only [List.mem_singleton] at h1
      subst h1
      simp at hh
  · intro p hp hne
    rcases List.mem_append.mp hp with h1 | h1
    · exact hTot p h1
    · simp only [List.mem_singleton] at h1
      subst h1
      simp at hne
  · intro p hp
    rw [hATot p hp]
    refine congrArg List.sum (List.map_congr_left ?_)
    intro e' he'
    simp only [holderWeight]
    rw [hNode e' (hHsub p hp e' he')]

theorem agg_of_midinv {e : String} {d : Index}
    (hmid : MidInv e d)
    (h : ∀ en, lookupA e d.entities = some en → en.total_value = holdingsSum en) :
    Agg d := by
  obtain ⟨h1, h2, h3, h4, h5, h6, h7, h8⟩ := hmid
  refine ⟨h1, h2, h3, h4, h5, h6, ?_, h8⟩
  intro p' hp'
  by_cases he : p'.1 = e
  · have hlp := lookupA_of_mem_of_nodup h1 hp'
    rw [he] at hlp
    exact h p'.2 hlp
  · exact h7 p' hp' he

/-- One `process_entity` step preserves `Agg` and appends the entity key. -/
theorem process_entity_agg {st st' : Index} {p : String × PyVal}
    (h : process_entity st p = .ok st')
    (hagg : Agg st)
    (hfresh : p.1 ∉ st.entities.map Prod.fst)
    (hitems : ((itemsOf p.2).map Prod.fst).Nodup) :
    Agg st' ∧ st'.entities.map Prod.fst = st.entities.map Prod.fst ++ [p.1] := by
  obtain ⟨T, hT, hfold⟩ := process_entity_ok h
  have hset : setA p.1 (⟨T, []⟩ : EntityNode) st.entities =
      st.entities ++ [(p.1, ⟨T, []⟩)] := setA_of_not_mem hfresh
  have hmid : MidInv p.1 ⟨setA p.1 ⟨T, []⟩ st.entities, st.assets⟩ := by
    rw [hset]
    exact agg_append_entity hagg hfresh
  have hen1 : lookupA p.1
      ((⟨setA p.1 ⟨T, []⟩ st.entities, st.assets⟩ : Index).entities) =
      some ⟨T, []⟩ := lookupA_setA_self
  obtain ⟨hmidout, hkeys, en', hlook, htv, hsum⟩ :=
    exFoldlM_process_asset_midinv hfold hmid hen1 (by simpa using hitems)
  constructor
  · refine agg_of_midinv hmidout ?_
    intro en hen
    rw [hlook] at hen
    cases hen
    rw [htv, hsum]
    simp only [holdingsSum, List.map_nil, List.sum_nil]
    rw [hT]
    ring
  · rw [hkeys]
    dsimp only
    rw [hset]
    simp

/-- The whole aggregation fold preserves `Agg`. -/
theorem exFoldlM_process_entity_agg :
    ∀ {raw : List (String × PyVal)} {st out : Index},
      exFoldlM process_entity st raw = .ok out →
      Agg st →
      (st.entities.map Prod.fst ++ raw.map Prod.fst).Nodup →
      (∀ p ∈ raw, ((itemsOf p.2).map Prod.fst).Nodup) →
      Agg out := by
  intro raw
  induction raw with
  | nil =>
    intro st out h hagg _ _
    simp only [exFoldlM] at h
    cases h
    exact hagg
  | cons p rest ih =>
    intro st out h hagg hnd hits
    simp only [exFoldlM] at h
    cases hp : process_entity st p with
    | error e1 => rw [hp] at h; dsimp only at h; simp at h
    | ok st1 =>
      rw [hp] at h
      dsimp only at h
      have hfresh : p.1 ∉ st.entities.map Prod.fst := by
        rcases List.nodup_append.mp hnd with ⟨_, _, hdisj⟩
        intro hc
        exact hdisj hc (by simp)
      obtain ⟨hagg1, hkeys1⟩ :=
        process_entity_agg hp hagg hfresh (hits p (List.mem_cons_self _ _))
      have hnd1 : (st1.entities.map Prod.fst ++ rest.map Prod.fst).Nodup := by
        rw [hkeys1]
        have heq : st.entities.map Prod.fst ++ [p.1] ++ rest.map Prod.fst =
            st.entities.map Prod.fst ++ (p.1 :: rest.map Prod.fst) := by simp
        rw [heq]
        simpa using hnd
      exact ih h hagg1 hnd1 (fun p' hp' => hits p' (List.mem_cons_of_mem _ hp'))

/-- The final sort of the assets preserves `Agg`. -/
theorem agg_sort {d : Index} (hagg : Agg d) :
    Agg ⟨d.entities, pySortDesc (fun p => p.2.total_value) d.assets⟩ := by
  obtain ⟨h1, h2, h3, h4, h5, h6, h7, h8⟩ := hagg
  have hperm := pySortDesc_perm
    (fun p : String × AssetNode => p.2.total_value) d.assets
  have h2' : ((pySortDesc (fun p : String × AssetNode => p.2.total_value)
      d.assets).map Prod.fst).Nodup := (hperm.map Prod.fst).nodup_iff.mpr h2
  have hlkA : ∀ k : String,
      lookupA k (pySortDesc (fun p : String × AssetNode => p.2.total_value)
        d.assets) = lookupA k d.assets :=
    fun k => lookupA_perm hperm h2'
  refine ⟨h1, h2', ?_, ?_, ?_, ?_, h7, ?_⟩
  · intro p hp
    exact h3 p (hperm.mem_iff.mp hp)
  · intro p hp e' he'
    exact h4 p (hperm.mem_iff.mp hp) e' he'
  · intro p hp e' he'
    exact h5 p (hperm.mem_iff.mp hp) e' he'
  · intro p hp q hq
    have h0 := h6 p hp q hq
    simp only [assetNode] at h0 ⊢
    rw [hlkA q.1]
    exact h0
  · intro p hp
    exact h8 p (hperm.mem_iff.mp hp)

/-- The master aggregator theorem: every successfully aggregated index of a
well-formed raw input satisfies all structural invariants. -/
theorem process_agg {raw : List (String × PyVal)} {idx : Index}
    (hok : process_market_maker_data raw = .ok idx) (hwf : RawWF raw) :
    Agg idx := by
  obtain ⟨d, hu, hidx⟩ := process_market_maker_data_ok hok
  have hagg0 : Agg (⟨[], []⟩ : Index) := by
    refine ⟨?_, ?_, ?_, ?_, ?_, ?_, ?_, ?_⟩ <;> simp
  have hagg := exFoldlM_process_entity_agg hu hagg0 (by simpa using hwf.1) hwf.2
  rw [hidx]
  exact agg_sort hagg

/-- C5: referential symmetry of every aggregated index — an entity appears
in an asset's holder list iff that asset's symbol appears in the entity's
holdings mapping (each direction stated over the members of the index). -/
theorem referential_symmetry (raw : List (String × PyVal)) (idx : Index)
    (hok : process_market_maker_data raw = .ok idx) (hwf : RawWF raw) :
    (∀ p ∈ idx.assets, ∀ e ∈ p.2.entities,
      (lookupA p.1 (entityNode idx e).assets).isSome = true) ∧
    (∀ p ∈ idx.entities, ∀ q ∈ p.2.assets, p.1 ∈ (assetNode idx q.1).entities) := by
  have h := process_agg hok hwf
  exact ⟨h.2.2.2.2.1, h.2.2.2.2.2.1⟩

/-- C5 witness: in the §8 example, holder A of asset X has an X holding, and
entity B's holding of Y puts B in Y's holder list. -/
theorem referential_symmetry_witness :
    RawWF exRaw ∧
    (lookupA "X" (entityNode exIdx "A").assets).isSome = true ∧
    "B" ∈ (assetNode exIdx "Y").entities := by
  have h := referential_symmetry exRaw exIdx (by with_unfolding_all rfl) (by decide)
  refine ⟨by decide, ?_, ?_⟩
  · exact h.1 ("X", ⟨.str "X", ["A", "B"], 0, 400⟩) (List.mem_cons_self _ _)
      "A" (by decide)
  · exact h.2 ("B", ⟨350, [("X", ⟨0, 300⟩), ("Y", ⟨0, 50⟩)]⟩)
      (List.mem_cons_of_mem _ (List.mem_cons_self _ _))
      ("Y", ⟨0, 50⟩) (List.mem_cons_of_mem _ (List.mem_cons_self _ _))

/-! ### The display name is fixed at first sight (lines 718-728) -/

theorem nameOr_some {a : AssetNode} {alt : Option PyVal} :
    nameOr (some a) alt = some a.name := rfl

theorem nameOr_none {alt : Option PyVal} : nameOr none alt = alt := rfl

theorem process_asset_names {e : String} {st st' : Index} {p : String × PyVal}
    (h : process_asset e st p = .ok st') :
    (∀ s : String, s ≠ p.1 →
      (lookupA s st'.assets).map AssetNode.name =
        (lookupA s st.assets).map AssetNode.name) ∧
    ((lookupA p.1 st'.assets).map AssetNode.name =
      nameOr (lookupA p.1 st.assets) (some (nameOf p.2 p.1))) := by
  obtain ⟨q, v, nameV, hval, hname, hst⟩ := process_asset_ok h
  subst hst
  constructor
  · intro s hs
    dsimp only
    rw [lookupA_modifyA_ne hs]
    by_cases hps : (lookupA p.1 st.assets).isSome = true
    · simp only [hps, if_true]
    · simp only [hps, if_false, Bool.false_eq_true]
      rw [lookupA_append_single_ne hs]
  · dsimp only
    rw [lookupA_modifyA_self]
    by_cases hps : (lookupA p.1 st.assets).isSome = true
    · obtain ⟨a₀, ha₀⟩ : ∃ a₀, lookupA p.1 st.assets = some a₀ := by
        cases hx : lookupA p.1 st.assets with
        | none => rw [hx] at hps; simp at hps
        | some a => exact ⟨a, rfl⟩
      simp only [hps, if_true]
      rw [ha₀, nameOr_some]
      simp only [Option.map_some']
    · have hnone : lookupA p.1 st.assets = none := by
        cases hx : lookupA p.1 st.assets with
        | none => rfl
        | some a => rw [hx] at hps; simp at hps
      rw [hnone, nameOr_none]
      simp only [Option.isSome_none, Bool.false_eq_true, if_false]
      rw [lookupA_append_none hnone]
      simp [lookupA, hname]

theorem exFoldlM_process_asset_names {e : String} :
    ∀ {items : List (String × PyVal)} {st out : Index},
      exFoldlM (process_asset e) st items = .ok out →
      ∀ s : String,
        (lookupA s out.assets).map AssetNode.name =
          nameOr (lookupA s st.assets)
            ((lookupA s items).map (fun info => nameOf info s)) := by
  intro items
  induction items with
  | nil =>
    intro st out h s
    simp only [exFoldlM] at h
    cases h
    cases hx : lookupA s st.assets with
    | none => simp [nameOr_none, lookupA]
    | some a => simp [nameOr_some]
  | cons p rest ih =>
    intro st out h s
    simp only [exFoldlM] at h
    cases hp : process_asset e st p with
    | error e1 => rw [hp] at h; dsimp only at h; simp at h
    | ok st1 =>
      rw [hp] at h
      dsimp only at h
      obtain ⟨hne, hself⟩ := process_asset_names hp
      have hih := ih h s
      by_cases hs : s = p.1
      · rw [hs] at hih ⊢
        cases hx : lookupA p.1 st.assets with
        | some a =>
          rw [hx, nameOr_some] at hself
          rw [nameOr_some]
          cases hx1 : lookupA p.1 st1.assets with
          | none => rw [hx1, Option.map_none'] at hself; simp at hself
          | some a1 =>
            rw [hx1, Option.map_some'] at hself
            rw [hx1, nameOr_some] at hih
            rw [hih]
            exact hself
        | none =>
          rw [hx, nameOr_none] at hself
          rw [nameOr_none]
          cases hx1 : lookupA p.1 st1.assets with
          | none => rw [hx1, Option.map_none'] at hself; simp at hself
          | some a1 =>
            rw [hx1, Option.map_some'] at hself
            rw [hx1, nameOr_some] at hih
            rw [hih]
            simp only [lookupA, if_pos rfl, Option.map_some']
            exact hself
      · have hmap := hne s hs
        have hcons : lookupA s (p :: rest) = lookupA s rest := by
          simp only [lookupA]
          rw [if_neg (fun hc => hs hc.symm)]
        cases hx : lookupA s st.assets with
        | some a =>
          rw [hx, Option.map_some'] at hmap
          rw [nameOr_some]
          cases hx1 : lookupA s st1.assets with
          | none => rw [hx1, Option.map_none'] at hmap; simp at hmap
          | some a1 =>
            rw [hx1, Option.map_some'] at hmap
            rw [hx1, nameOr_some] at hih
            rw [hih]
            exact hmap
        | none =>
          rw [hx, Option.map_none'] at hmap
          rw [nameOr_none]
          cases hx1 : lookupA s st1.assets with
          | some a1 => rw [hx1, Option.map_some'] at hmap; simp at hmap
          | none =>
            rw [hx1, nameOr_none] at hih
            rw [hih, hcons]

theorem firstNameOf_cons {p : String × PyVal} {rest : List (String × PyVal)}
    {s : String} :
    firstNameOf (p :: rest) s =
      match lookupA s (itemsOf p.2) with
      | some info => some (nameOf info s)
      | none => firstNameOf rest s := rfl

theorem process_entity_names {st st' : Index} {p : String × PyVal}
    (h : process_entity st p = .ok st') :
    ∀ s : String,
      (lookupA s st'.assets).map AssetNode.name =
        nameOr (lookupA s st.assets)
          ((lookupA s (itemsOf p.2)).map (fun info => nameOf info s)) := by
  obtain ⟨T, hT, hfold⟩ := process_entity_ok h
  intro s
  exact exFoldlM_process_asset_names hfold s

theorem exFoldlM_process_entity_names :
    ∀ {raw : List (String × PyVal)} {st out : Index},
      exFoldlM process_entity st raw = .ok out →
      ∀ s : String,
        (lookupA s out.assets).map AssetNode.name =
          nameOr (lookupA s st.assets) (firstNameOf raw s) := by
  intro raw
  induction raw with
  | nil =>
    intro st out h s
    simp only [exFoldlM] at h
    cases h
    cases hx : lookupA s st.assets with
    | none => rw [nameOr_none]; simp [firstNameOf]
    | some a => rw [nameOr_some]; simp
  | cons p rest ih =>
    intro st out h s
    simp only [exFoldlM] at h
    cases hp : process_entity st p with
    | error e1 => rw [hp] at h; dsimp only at h; simp at h
    | ok st1 =>
      rw [hp] at h
      dsimp only at h
      have hstep := process_entity_names hp s
      have hih := ih h s
      cases hx : lookupA s st.assets with
      | some a =>
        rw [hx, nameOr_some] at hstep
        rw [nameOr_some]
        cases hx1 : lookupA s st1.assets with
        | none => rw [hx1, Option.map_none'] at hstep; simp at hstep
        | some a1 =>
          rw [hx1, Option.map_some'] at hstep
          rw [hx1, nameOr_some] at hih
          rw [hih]
          exact hstep
      | none =>
        rw [hx, nameOr_none] at hstep
        rw [nameOr_none, firstNameOf_cons]
        cases hit : lookupA s (itemsOf p.2) with
        | some info =>
          dsimp only
          rw [hit, Option.map_some'] at hstep
          cases hx1 : lookupA s st1.assets with
          | none => rw [hx1, Option.map_none'] at hstep; simp at hstep
          | some a1 =>
            rw [hx1, Option.map_some'] at hstep
            rw [hx1, nameOr_some] at hih
            rw [hih]
            exact hstep
        | none =>
          dsimp only
          rw [hit, Option.map_none'] at hstep
          cases hx1 : lookupA s st1.assets with
          | some a1 => rw [hx1, Option.map_some'] at hstep; simp at hstep
          | none =>
            rw [hx1, nameOr_none] at hih
            exact hih

/-- C10: the finalized asset node for a symbol carries exactly the display
name contributed by the first record (in raw order) holding that symbol —
names supplied by later entities are ignored. -/
theorem asset_name_first_seen (raw : List (String × PyVal)) (idx : Index)
    (hok : process_market_maker_data raw = .ok idx) (hwf : RawWF raw) :
    ∀ s : String,
      (lookupA s idx.assets).map AssetNode.name = firstNameOf raw s := by
  obtain ⟨d, hu, hidx⟩ := process_market_maker_data_ok hok
  intro s
  have hd := exFoldlM_process_entity_names hu s
  have hndsorted : (idx.assets.map Prod.fst).Nodup := (process_agg hok hwf).2.1
  have hperm : idx.assets.Perm d.assets := by
    rw [hidx]
    exact pySortDesc_perm _ d.assets
  have hlk : lookupA s idx.assets = lookupA s d.assets :=
    lookupA_perm hperm hndsorted
  rw [hlk, hd]
  rfl

/-- C10 witness: N1 and N2 both report X, under names CoinA and CoinB; the
finalized index keeps CoinA, the first-seen name. -/
theorem asset_name_first_seen_witness :
    RawWF rawNames ∧
    (lookupA "X" idxNames.assets).map AssetNode.name = some (.str "CoinA") := by
  refine ⟨by decide, ?_⟩
  have h := asset_name_first_seen rawNames idxNames
    (by with_unfolding_all rfl) (by decide) "X"
  rw [h]
  with_unfolding_all rfl

/-! ### Entity anchor placement (lines 828-856) -/

theorem lookupA_enum_map {β : Type} {g : ℕ → β} :
    ∀ (es : List String), es.Nodup →
      ∀ (k i : ℕ) (h : i < es.length),
        lookupA (es.get ⟨i, h⟩)
          ((es.enumFrom k).map (fun p => (p.2, g p.1))) = some (g (k + i)) := by
  intro es
  induction es with
  | nil =>
    intro _ k i h
    simp at h
  | cons e es ih =>
    intro hnd k i h
    rw [List.nodup_cons] at hnd
    cases i with
    | zero =>
      simp [List.enumFrom_cons, lookupA]
    | succ i =>
      have hi : i < es.length := by simpa using h
      have hget : (e :: es).get ⟨i + 1, h⟩ = es.get ⟨i, hi⟩ := rfl
      rw [hget]
      have hne : e ≠ es.get ⟨i, hi⟩ := by
        intro hc
        exact hnd.1 (hc ▸ es.get_mem _ _)
      simp only [List.enumFrom_cons, List.map_cons, lookupA]
      rw [if_neg hne]
      rw [ih hnd.2 (k + 1) i hi]
      have : k + 1 + i = k + (i + 1) := by omega
      rw [this]

/-- C9: the layout sorts the selected entities by total value, descending
and stably, and places the entity of rank `i` at
`(5.5·cos(2πi/n), 5.5·sin(2πi/n))` (`anchorPoint n i`, lines 851-856). -/
theorem entity_anchor_layout (data : Index)
    (hnd : (data.entities.map Prod.fst).Nodup) :
    List.Pairwise (fun a b => b.2 ≤ a.2)
      (pySortDesc (fun p => p.2) (entity_values data)) ∧
    (∀ v : ℚ, (pySortDesc (fun p => p.2) (entity_values data)).filter
        (fun p => decide (p.2 = v)) =
      (entity_values data).filter (fun p => decide (p.2 = v))) ∧
    ∀ (i : ℕ) (h : i < (sorted_entities data).length),
      lookupA ((sorted_entities data).get ⟨i, h⟩) (entity_positions data) =
        some (anchorPoint (sorted_entities data).length i) := by
  refine ⟨pySortDesc_pairwise _ _, fun v => pySortDesc_filter _ _ v, ?_⟩
  intro i h
  have hkeys : (entity_values data).map Prod.fst = data.entities.map Prod.fst := by
    simp [entity_values]
  have hnd2 : (sorted_entities data).Nodup := by
    have hperm :=
      (pySortDesc_perm (fun p : String × ℚ => p.2) (entity_values data)).map Prod.fst
    exact hperm.nodup_iff.mpr (hkeys ▸ hnd)
  have hmain := @lookupA_enum_map _
    (fun j => anchorPoint (sorted_entities data).length j)
    (sorted_entities data) hnd2 0 i h
  simpa [entity_positions, List.enum] using hmain

/-- C9 witness: in the §8 example the rank-1 entity (A, total 100 < 350) is
anchored at `anchorPoint 2 1`. -/
theorem entity_anchor_layout_witness :
    (exIdx.entities.map Prod.fst).Nodup ∧
    lookupA "A" (entity_positions exIdx) = some (anchorPoint 2 1) := by
  refine ⟨by decide, ?_⟩
  have h := (entity_anchor_layout exIdx (by decide)).2.2 1
    (by with_unfolding_all decide)
  with_unfolding_all exact h

/-! ### Totality of the layout on conforming data (C2) -/

theorem mem_sorted_entities {data : Index} {e : String}
    (h : e ∈ sorted_entities data) : e ∈ data.entities.map Prod.fst := by
  simp only [sorted_entities] at h
  obtain ⟨p, hp, hpe⟩ := List.mem_map.mp h
  have hpv := (pySortDesc_perm (fun p : String × ℚ => p.2)
    (entity_values data)).mem_iff.mp hp
  simp only [entity_values] at hpv
  obtain ⟨p0, hp0, hp0e⟩ := List.mem_map.mp hpv
  subst hpe
  rw [← hp0e]
  exact List.mem_map.mpr ⟨p0, hp0, rfl⟩

theorem layoutTotal (data : Index)
    (h1 : ∀ p ∈ data.entities, 0 ≤ p.2.total_value)
    (h2 : total_market_value data ≠ 0 ∨
      ∀ a ∈ data.assets.map Prod.fst, asset_holders data a = [])
    (h3 : ∀ a ∈ data.assets.map Prod.fst, asset_holders data a ≠ [] →
      (assetNode data a).total_value ≠ 0) :
    ∃ scene, create_venn_diagram data = .ok scene := by
  have hzones : ∃ zs, exMapM (entity_zone data) (sorted_entities data) = .ok zs := by
    apply exMapM_ok_of_all
    intro e he
    have hk := mem_sorted_entities he
    obtain ⟨en, hen⟩ : ∃ en, lookupA e data.entities = some en := by
      cases hx : lookupA e data.entities with
      | none => exact absurd (lookupA_eq_none_iff.mp hx) (fun hc => hc hk)
      | some en => exact ⟨en, rfl⟩
    have hnn : 0 ≤ en.total_value := h1 (e, en) (lookupA_eq_some_mem hen)
    have hsq : pySqrt en.total_value = .ok (Real.sqrt ((en.total_value : ℚ) : ℝ)) := by
      simp only [pySqrt, if_neg (not_lt.mpr hnn)]
    cases hz : entity_zone data e with
    | ok z => exact ⟨z, rfl⟩
    | error err =>
      simp only [entity_zone, entityNode_eq hen] at hz
      rw [hsq] at hz
      simp at hz
  have hcalcs : ∃ cs, asset_calcs data = .ok cs := by
    apply exMapM_ok_of_all
    intro a ha
    have hmem : a ∈ data.assets.map Prod.fst := (List.mem_filter.mp ha).1
    have hne : asset_holders data a ≠ [] := by
      have h0 := (List.mem_filter.mp ha).2
      simpa [List.isEmpty_iff] using h0
    have hT : total_market_value data ≠ 0 := by
      rcases h2 with h2 | h2
      · exact h2
      · exact absurd (h2 a hmem) hne
    have hap : asset_percentage data a =
        .ok ((assetNode data a).total_value / total_market_value data * 100) := by
      simp only [asset_percentage, pyDiv, if_neg hT]
    rw [hap]
    exact ⟨_, rfl⟩
  obtain ⟨zs, hzs⟩ := hzones
  obtain ⟨cs, hcs⟩ := hcalcs
  have hbub : ∃ bs,
      exFoldlM
        (fun acc a =>
          match cs.find? (fun c => c.symbol == a) with
          | none => .ok acc
          | some c =>
            match asset_bubble data c with
            | .error e => .error e
            | .ok b => .ok (acc ++ [b]))
        [] (sorted_assets data) = .ok bs := by
    apply exFoldlM_ok_of_all
    intro acc a ha
    dsimp only
    cases hf : cs.find? (fun c => c.symbol == a) with
    | none => exact ⟨acc, rfl⟩
    | some c =>
      dsimp only
      have hcmem : c ∈ cs := List.mem_of_find?_eq_some hf
      obtain ⟨a0, ha0, hfa0⟩ := exMapM_ok_mem hcs c hcmem
      have hsym : c.symbol = a0 := by
        cases hap : asset_percentage data a0 with
        | error e => rw [hap] at hfa0; dsimp only at hfa0; simp at hfa0
        | ok pct =>
          rw [hap] at hfa0
          dsimp only at hfa0
          cases hfa0
          rfl
      have hmem0 : a0 ∈ data.assets.map Prod.fst := (List.mem_filter.mp ha0).1
      have hne0 : asset_holders data a0 ≠ [] := by
        have h0 := (List.mem_filter.mp ha0).2
        simpa [List.isEmpty_iff] using h0
      have htv : (assetNode data a0).total_value ≠ 0 := h3 a0 hmem0 hne0
      have hbr : ∃ br, holder_breakdown data c.symbol = .ok br := by
        rw [hsym]
        apply exFoldlM_ok_of_all
        intro acc' h' hh'
        dsimp only
        cases hl : lookupA a0 (entityNode data h').assets with
        | none => exact ⟨acc', rfl⟩
        | some hold =>
          have hd : pyDiv hold.value_usd (assetNode data a0).total_value =
              .ok (hold.value_usd / (assetNode data a0).total_value) := by
            simp only [pyDiv, if_neg htv]
          dsimp only
          rw [hd]
          exact ⟨_, rfl⟩
      obtain ⟨br, hbr⟩ := hbr
      cases hab : asset_bubble data c with
      | ok b =>
        dsimp only
        exact ⟨acc ++ [b], rfl⟩
      | error err =>
        simp only [asset_bubble] at hab
        rw [hbr] at hab
        dsimp only at hab
        simp at hab
  obtain ⟨bs, hbs⟩ := hbub
  cases hfinal : create_venn_diagram data with
  | ok s => exact ⟨s, rfl⟩
  | error err =>
    simp only [create_venn_diagram] at hfinal
    rw [hzs] at hfinal
    dsimp only at hfinal
    rw [hcs] at hfinal
    dsimp only at hfinal
    rw [hbs] at hfinal
    dsimp only at hfinal
    simp at hfinal

/-- C2 amended: the layout returns a scene whenever (i) no entity of the
data carries a negative total (`math.sqrt`, line 860), (ii) the entities'
totals do not sum to zero when some asset has a selected holder (the
division of line 923), and (iii) every asset with a selected holder has a
nonzero stored total (the division of line 971).  In the claimed edge case —
all selected entity totals 0 with a selected asset that has a holder — the
code raises `ZeroDivisionError` instead (see the counterexample). -/
theorem create_venn_diagram_total (data : Index)
    (h1 : ∀ p ∈ data.entities, 0 ≤ p.2.total_value)
    (h2 : total_market_value data ≠ 0 ∨
      ∀ a ∈ data.assets.map Prod.fst, asset_holders data a = [])
    (h3 : ∀ a ∈ data.assets.map Prod.fst, asset_holders data a ≠ [] →
      (assetNode data a).total_value ≠ 0) :
    exOk (create_venn_diagram data) = true := by
  obtain ⟨s, hs⟩ := layoutTotal data h1 h2 h3
  rw [hs]
  rfl

/-- C2 witness: the §8 example index renders to a scene. -/
theorem create_venn_diagram_total_witness :
    ((∀ p ∈ exIdx.entities, 0 ≤ p.2.total_value) ∧
      (total_market_value exIdx ≠ 0 ∨
        ∀ a ∈ exIdx.assets.map Prod.fst, asset_holders exIdx a = []) ∧
      (∀ a ∈ exIdx.assets.map Prod.fst, asset_holders exIdx a ≠ [] →
        (assetNode exIdx a).total_value ≠ 0)) ∧
    exOk (create_venn_diagram exIdx) = true := by
  refine ⟨⟨by with_unfolding_all decide, by with_unfolding_all decide,
    by with_unfolding_all decide⟩, ?_⟩
  exact create_venn_diagram_total exIdx (by with_unfolding_all decide)
    (by with_unfolding_all decide) (by with_unfolding_all decide)

/-! ### C8: the weighted centroid and its fallback -/

/-- C8 amended: the asset position is the value-weighted average of the
holders' anchors when the weights sum to a *positive* value (line 910 tests
`total_weight > 0`, not `!= 0`); on a zero — or, contrary to the claim, any
negative — weight sum it is the unweighted mean of the holders' anchors; an
asset whose holder list is a single entity sits exactly on that entity's
anchor in either branch. -/
theorem asset_position_centroid (data : Index) (asset : String) :
    (0 < total_weight data asset →
      asset_position data asset = weighted_centroid_spec data asset) ∧
    (total_weight data asset ≤ 0 →
      asset_position data asset =
        (((asset_holders data asset).map (fun e => (entityPos data e).1)).sum /
           ((asset_holders data asset).length : ℝ),
         ((asset_holders data asset).map (fun e => (entityPos data e).2)).sum /
           ((asset_holders data asset).length : ℝ))) ∧
    (∀ e, asset_holders data asset = [e] →
      asset_position data asset = entityPos data e) := by
  refine ⟨?_, ?_, ?_⟩
  · intro h
    simp only [asset_position, weighted_centroid_spec]
    rw [if_pos h]
  · intro h
    simp only [asset_position]
    rw [if_neg (not_lt.mpr h)]
  · intro e he
    have hw : total_weight data asset = holderWeight data e asset := by
      simp [total_weight, he]
    by_cases h0 : 0 < total_weight data asset
    · have hne : ((holderWeight data e asset : ℚ) : ℝ) ≠ 0 := by
        rw [hw] at h0
        exact_mod_cast ne_of_gt h0
      simp only [asset_position, he, hw, List.map_cons, List.map_nil,
        List.sum_cons, List.sum_nil, add_zero]
      rw [if_pos (hw ▸ h0)]
      refine Prod.ext ?_ ?_ <;> dsimp only <;>
        rw [mul_div_assoc, div_self hne, mul_one]
    · simp only [asset_position, he, List.map_cons, List.map_nil,
        List.sum_cons, List.sum_nil, add_zero, List.length_cons,
        List.length_nil]
      rw [if_neg h0]
      norm_num

/-- C8 witness: in the §8 example the asset Y is held by B alone with
positive weight; its bubble sits on B's anchor and equals the weighted
centroid. -/
theorem asset_position_centroid_witness :
    (0 < total_weight exIdx "Y" ∧
      asset_position exIdx "Y" = weighted_centroid_spec exIdx "Y") ∧
    asset_holders exIdx "Y" = ["B"] ∧
    asset_position exIdx "Y" = entityPos exIdx "B" := by
  have h := asset_position_centroid exIdx "Y"
  have htw : 0 < total_weight exIdx "Y" := by with_unfolding_all decide
  have hh : asset_holders exIdx "Y" = ["B"] := by with_unfolding_all decide
  exact ⟨⟨htw, h.1 htw⟩, hh, h.2.2 "B" hh⟩

/-- C8 counterexample: with holder weights 100 and −300 the weight sum is
−200 ≠ 0, yet the code takes the unweighted-mean fallback (line 910 tests
`> 0`), so the position is not the weighted centroid the claim promises for
every nonzero weight sum. -/
theorem asset_position_negative_weights_cex :
    total_weight negWeightIdx "X" ≠ 0 ∧
    asset_position negWeightIdx "X" ≠ weighted_centroid_spec negWeightIdx "X" := by
  have htw : total_weight negWeightIdx "X" = -200 := by
    with_unfolding_all decide
  have hholders : asset_holders negWeightIdx "X" = ["A", "B"] := by
    with_unfolding_all decide
  have hwA : holderWeight negWeightIdx "A" "X" = 100 := by
    with_unfolding_all decide
  have hwB : holderWeight negWeightIdx "B" "X" = -300 := by
    with_unfolding_all decide
  have hse : sorted_entities negWeightIdx = ["A", "B"] := by
    with_unfolding_all decide
  have hpos : entity_positions negWeightIdx =
      [("A", anchorPoint 2 0), ("B", anchorPoint 2 1)] := by
    simp only [entity_positions, hse]
    simp [List.enum, List.enumFrom]
  have hA0 : anchorPoint 2 0 = ((5.5 : ℝ), 0) := by
    have harg : 2 * Real.pi * ((0 : ℕ) : ℝ) / ((2 : ℕ) : ℝ) = 0 := by
      push_cast
      ring
    rw [anchorPoint, harg, Real.cos_zero, Real.sin_zero]
    norm_num
  have hB1 : anchorPoint 2 1 = ((-5.5 : ℝ), 0) := by
    have harg : 2 * Real.pi * ((1 : ℕ) : ℝ) / ((2 : ℕ) : ℝ) = Real.pi := by
      push_cast
      ring
    rw [anchorPoint, harg, Real.cos_pi, Real.sin_pi]
    norm_num
  have hA : entityPos negWeightIdx "A" = ((5.5 : ℝ), 0) := by
    rw [entityPos, hpos, hA0]
    simp [lookupA]
  have hB : entityPos negWeightIdx "B" = ((-5.5 : ℝ), 0) := by
    rw [entityPos, hpos, hB1]
    simp [lookupA]
  have hap : asset_position negWeightIdx "X" = ((0 : ℝ), 0) := by
    simp only [asset_position, hholders, htw]
    rw [if_neg (by norm_num : ¬ ((0 : ℚ) < -200))]
    simp [hA, hB]
  have hwc : weighted_centroid_spec negWeightIdx "X" = ((-11 : ℝ), 0) := by
    rw [weighted_centroid_spec, hholders, htw]
    simp only [List.map_cons, List.map_nil, List.sum_cons, List.sum_nil,
      add_zero, hA, hB, hwA, hwB]
    rw [Prod.ext_iff]
    constructor <;> · push_cast; norm_num
  refine ⟨by rw [htw]; norm_num, ?_⟩
  rw [hap, hwc]
  intro hcontra
  have h1 := congrArg Prod.fst hcontra
  norm_num at h1

/-! ### C1: bounds on the market-share percentage -/

theorem sublist_sum_le {l₁ l₂ : List ℚ} (h : List.Sublist l₁ l₂)
    (h0 : ∀ x ∈ l₂, 0 ≤ x) : l₁.sum ≤ l₂.sum := by
  induction h with
  | slnil => exact le_refl _
  | cons a h ih =>
    have := ih (fun x hx => h0 x (List.mem_cons_of_mem _ hx))
    calc _ ≤ _ := this
      _ ≤ _ := le_add_of_nonneg_left (h0 a (List.mem_cons_self _ _))
      _ = (a :: _).sum := (List.sum_cons).symm
  | cons₂ a h ih =>
    simp only [List.sum_cons]
    exact add_le_add_left (ih (fun x hx => h0 x (List.mem_cons_of_mem _ hx))) a

theorem subperm_sum_le {l₁ l₂ : List ℚ} (h : List.Subperm l₁ l₂)
    (h0 : ∀ x ∈ l₂, 0 ≤ x) : l₁.sum ≤ l₂.sum := by
  obtain ⟨l, hperm, hsub⟩ := h
  calc l₁.sum = l.sum := (hperm.sum_eq).symm
    _ ≤ l₂.sum := sublist_sum_le hsub h0

theorem lookupA_filterMap {α : Type} {src : List (String × α)}
    {sel : List String} {k : String} {v : α}
    (h : lookupA k (sel.filterMap
        (fun e => (lookupA e src).map (fun n => (e, n)))) = some v) :
    k ∈ sel ∧ lookupA k src = some v := by
  have hm := lookupA_eq_some_mem h
  obtain ⟨e, he, heq⟩ := List.mem_filterMap.mp hm
  cases hsrc : lookupA e src with
  | none => rw [hsrc] at heq; simp at heq
  | some n =>
    rw [hsrc] at heq
    simp only [Option.map_some', Option.some.injEq, Prod.mk.injEq] at heq
    obtain ⟨rfl, rfl⟩ := heq
    exact ⟨he, hsrc⟩

theorem mem_filtered_entities {idx : Index} {selE selA : List String}
    {e : String} {en : EntityNode} (he : e ∈ selE)
    (hen : lookupA e idx.entities = some en) :
    (e, en) ∈ (filtered_data idx selE selA).entities := by
  exact List.mem_filterMap.mpr ⟨e, he, by rw [hen]; rfl⟩

theorem filtered_entities_mem {idx : Index} {selE selA : List String}
    {p : String × EntityNode}
    (hp : p ∈ (filtered_data idx selE selA).entities) :
    p.1 ∈ selE ∧ lookupA p.1 idx.entities = some p.2 := by
  obtain ⟨e, he, heq⟩ := List.mem_filterMap.mp hp
  cases hsrc : lookupA e idx.entities with
  | none => rw [hsrc] at heq; simp at heq
  | some n =>
    rw [hsrc] at heq
    simp only [Option.map_some', Option.some.injEq] at heq
    rw [← heq]
    exact ⟨he, hsrc⟩

theorem holdingsSum_nonneg {idx : Index}
    (hnn : ∀ p ∈ idx.entities, ∀ q ∈ p.2.assets, 0 ≤ q.2.value_usd)
    {e : String} {en : EntityNode} (hmem : (e, en) ∈ idx.entities) :
    0 ≤ holdingsSum en := by
  apply List.sum_nonneg
  intro x hx
  obtain ⟨q, hq, rfl⟩ := List.mem_map.mp hx
  exact hnn (e, en) hmem q hq

theorem holderWeight_bounds {idx : Index}
    (hnn : ∀ p ∈ idx.entities, ∀ q ∈ p.2.assets, 0 ≤ q.2.value_usd)
    {e : String} {en : EntityNode} (hen : lookupA e idx.entities = some en)
    (a0 : String) :
    0 ≤ holderWeight idx e a0 ∧ holderWeight idx e a0 ≤ holdingsSum en := by
  have hnode : entityNode idx e = en := by rw [entityNode, hen]; rfl
  have hmem : (e, en) ∈ idx.entities := lookupA_eq_some_mem hen
  rw [holderWeight, hnode]
  cases hl : lookupA a0 en.assets with
  | none =>
    simp only [Option.map_none', Option.getD_none]
    exact ⟨le_refl 0, holdingsSum_nonneg hnn hmem⟩
  | some hold =>
    simp only [Option.map_some', Option.getD_some]
    have hqmem : (a0, hold) ∈ en.assets := lookupA_eq_some_mem hl
    refine ⟨hnn (e, en) hmem (a0, hold) hqmem, ?_⟩
    exact List.single_le_sum
      (fun x hx => by
        obtain ⟨q, hq, rfl⟩ := List.mem_map.mp hx
        exact hnn (e, en) hmem q hq)
      _ (List.mem_map.mpr ⟨(a0, hold), hqmem, rfl⟩)

theorem exFoldlM_inv {σ α : Type} {f : σ → α → Except String σ} (P : σ → Prop) :
    ∀ (l : List α) (s out : σ),
      (∀ s' a s'', a ∈ l → P s' → f s' a = .ok s'' → P s'') →
      P s → exFoldlM f s l = .ok out → P out := by
  intro l
  induction l with
  | nil =>
    intro s out _ hP h
    injection h with h
    exact h ▸ hP
  | cons a l ih =>
    intro s out hstep hP h
    simp only [exFoldlM] at h
    cases hfa : f s a with
    | error e => rw [hfa] at h; cases h
    | ok s' =>
      rw [hfa] at h
      dsimp only at h
      exact ih s' out
        (fun s₁ a₁ s₂ ha₁ => hstep s₁ a₁ s₂ (List.mem_cons_of_mem _ ha₁))
        (hstep s a s' (List.mem_cons_self _ _) hP hfa) h

/-- C1 amended: every rendered bubble's market-share percentage lies in
`[0, 100]` provided the index fed to the filter satisfies the aggregator
invariant, every stored holding value is nonnegative, and the selection is
holder-closed — every holder of every selected asset is itself a selected
entity.  Without holder closure the claim fails: lines 253-259 keep a
selected asset's node whole, so its total retains contributions of
unselected holders while the denominator of line 922 shrinks to the
selected entities, and the percentage can exceed 100 (see the
counterexample, where it is 400). -/
theorem filtered_percentage_bounds (idx : Index) (selE selA : List String)
    (scene : Scene)
    (hAgg : Agg idx)
    (hnn : ∀ p ∈ idx.entities, ∀ q ∈ p.2.assets, 0 ≤ q.2.value_usd)
    (hclosed : ∀ p ∈ idx.assets, p.1 ∈ selA → ∀ e ∈ p.2.entities, e ∈ selE)
    (hok : create_venn_diagram (filtered_data idx selE selA) = .ok scene) :
    ∀ b ∈ scene.bubbles, 0 ≤ b.percentage ∧ b.percentage ≤ 100 := by
  intro b hb
  simp only [create_venn_diagram] at hok
  cases hzs : exMapM (entity_zone (filtered_data idx selE selA))
      (sorted_entities (filtered_data idx selE selA)) with
  | error e => rw [hzs] at hok; simp at hok
  | ok zones =>
  rw [hzs] at hok
  dsimp only at hok
  cases hcs : asset_calcs (filtered_data idx selE selA) with
  | error e => rw [hcs] at hok; simp at hok
  | ok calcs =>
  rw [hcs] at hok
  dsimp only at hok
  cases hbs :
      exFoldlM
        (fun acc a =>
          match calcs.find? (fun c => c.symbol == a) with
          | none => .ok acc
          | some c =>
            match asset_bubble (filtered_data idx selE selA) c with
            | .error e => .error e
            | .ok b => .ok (acc ++ [b]))
        [] (sorted_assets (filtered_data idx selE selA)) with
  | error e => rw [hbs] at hok; simp at hok
  | ok bs =>
  rw [hbs] at hok
  dsimp only at hok
  injection hok with hok
  subst hok
  dsimp only at hb
  have hprov :
      ∀ b' ∈ bs, ∃ c ∈ calcs,
        asset_bubble (filtered_data idx selE selA) c = .ok b' := by
    refine exFoldlM_inv
      (fun out => ∀ b' ∈ out, ∃ c ∈ calcs,
        asset_bubble (filtered_data idx selE selA) c = .ok b')
      (sorted_assets (filtered_data idx selE selA)) [] bs ?_ ?_ hbs
    · intro s' a s'' _ hP hstep b' hb'
      cases hf : calcs.find? (fun c => c.symbol == a) with
      | none =>
        rw [hf] at hstep
        dsimp only at hstep
        injection hstep with hstep
        exact hP b' (hstep ▸ hb')
      | some c =>
        rw [hf] at hstep
        dsimp only at hstep
        cases hab : asset_bubble (filtered_data idx selE selA) c with
        | error e => rw [hab] at hstep; cases hstep
        | ok b0 =>
          rw [hab] at hstep
          dsimp only at hstep
          injection hstep with hstep
          rw [← hstep] at hb'
          rcases List.mem_append.mp hb' with hmem | hmem
          · exact hP b' hmem
          · exact ⟨c, List.mem_of_find?_eq_some hf,
              (List.mem_singleton.mp hmem) ▸ hab⟩
    · intro b' hb'
      simp at hb'
  obtain ⟨c, hc, hab⟩ := hprov b hb
  have hbp : b.percentage = c.percentage := by
    simp only [asset_bubble] at hab
    cases hbr : holder_breakdown (filtered_data idx selE selA) c.symbol with
    | error e => rw [hbr] at hab; cases hab
    | ok br =>
      rw [hbr] at hab
      dsimp only at hab
      injection hab with hab
      rw [← hab]
  obtain ⟨a0, ha0, hfa0⟩ := exMapM_ok_mem hcs c hc
  have hap : asset_percentage (filtered_data idx selE selA) a0 =
      .ok c.percentage := by
    cases hx : asset_percentage (filtered_data idx selE selA) a0 with
    | error e => rw [hx] at hfa0; dsimp only at hfa0; cases hfa0
    | ok pct =>
      rw [hx] at hfa0
      dsimp only at hfa0
      injection hfa0 with hfa0
      rw [← hfa0]
  by_cases hT : total_market_value (filtered_data idx selE selA) = 0
  · rw [asset_percentage, pyDiv, if_pos hT] at hap
    cases hap
  simp only [asset_percentage, pyDiv, if_neg hT] at hap
  injection hap with hap
  obtain ⟨an, han⟩ :
      ∃ an, lookupA a0 (filtered_data idx selE selA).assets = some an := by
    cases hx : lookupA a0 (filtered_data idx selE selA).assets with
    | none =>
      exact absurd (lookupA_eq_none_iff.mp hx)
        (fun hcn => hcn ((List.mem_filter.mp ha0).1))
    | some an => exact ⟨an, rfl⟩
  obtain ⟨ha0A, hsrc⟩ := @lookupA_filterMap _ idx.assets selA _ _ han
  have hmemidx : (a0, an) ∈ idx.assets := lookupA_eq_some_mem hsrc
  have hassetnode : assetNode (filtered_data idx selE selA) a0 = an := by
    rw [assetNode, han]
    rfl
  have htv_eq : an.total_value =
      (an.entities.map (fun e => holderWeight idx e a0)).sum :=
    hAgg.2.2.2.2.2.2.2 (a0, an) hmemidx
  have hlk : ∀ e ∈ an.entities, ∃ en, lookupA e idx.entities = some en := by
    intro e he
    have hkey := hAgg.2.2.2.1 (a0, an) hmemidx e he
    cases hx : lookupA e idx.entities with
    | none => exact absurd (lookupA_eq_none_iff.mp hx) (fun hcn => hcn hkey)
    | some en => exact ⟨en, rfl⟩
  have h_nonneg : ∀ e ∈ an.entities, 0 ≤ holderWeight idx e a0 := by
    intro e he
    obtain ⟨en, hen⟩ := hlk e he
    exact (holderWeight_bounds hnn hen a0).1
  have h_le : ∀ e ∈ an.entities,
      holderWeight idx e a0 ≤ holdingsSum (entityNode idx e) := by
    intro e he
    obtain ⟨en, hen⟩ := hlk e he
    have hnode : entityNode idx e = en := by rw [entityNode, hen]; rfl
    rw [hnode]
    exact (holderWeight_bounds hnn hen a0).2
  have h0 : ∀ x ∈ (filtered_data idx selE selA).entities.map
      (fun p => holdingsSum p.2), 0 ≤ x := by
    intro x hx
    obtain ⟨p, hp, rfl⟩ := List.mem_map.mp hx
    exact holdingsSum_nonneg hnn
      (lookupA_eq_some_mem (filtered_entities_mem hp).2)
  have hpairs_sub : ∀ x ∈ an.entities.map (fun e => (e, entityNode idx e)),
      x ∈ (filtered_data idx selE selA).entities := by
    intro x hx
    obtain ⟨e, he, rfl⟩ := List.mem_map.mp hx
    obtain ⟨en, hen⟩ := hlk e he
    have hnode : entityNode idx e = en := by rw [entityNode, hen]; rfl
    rw [hnode]
    exact mem_filtered_entities (hclosed (a0, an) hmemidx ha0A e he) hen
  have hpairs_nodup :
      (an.entities.map (fun e => (e, entityNode idx e))).Nodup :=
    (hAgg.2.2.1 (a0, an) hmemidx).map (fun a b h => congrArg Prod.fst h)
  have hsum2 : (an.entities.map (fun e => holdingsSum (entityNode idx e))).sum ≤
      ((filtered_data idx selE selA).entities.map
        (fun p => holdingsSum p.2)).sum := by
    obtain ⟨l, hperm, hsub⟩ := List.Nodup.subperm hpairs_nodup hpairs_sub
    have h : List.Subperm
        ((an.entities.map (fun e => (e, entityNode idx e))).map
          (fun p : String × EntityNode => holdingsSum p.2))
        ((filtered_data idx selE selA).entities.map
          (fun p : String × EntityNode => holdingsSum p.2)) :=
      ⟨l.map (fun p : String × EntityNode => holdingsSum p.2),
        hperm.map _, hsub.map _⟩
    rw [List.map_map] at h
    simpa [Function.comp] using subperm_sum_le h h0
  have hT_eq : total_market_value (filtered_data idx selE selA) =
      ((filtered_data idx selE selA).entities.map
        (fun p => holdingsSum p.2)).sum := by
    rw [total_market_value]
    congr 1
    apply List.map_congr_left
    intro p hp
    exact hAgg.2.2.2.2.2.2.1 p
      (lookupA_eq_some_mem (filtered_entities_mem hp).2)
  have hT_nonneg : 0 ≤ total_market_value (filtered_data idx selE selA) := by
    rw [hT_eq]
    exact List.sum_nonneg h0
  have hT_pos : 0 < total_market_value (filtered_data idx selE selA) :=
    lt_of_le_of_ne hT_nonneg (Ne.symm hT)
  have htv_nonneg : 0 ≤ an.total_value := by
    rw [htv_eq]
    apply List.sum_nonneg
    intro x hx
    obtain ⟨e, he, rfl⟩ := List.mem_map.mp hx
    exact h_nonneg e he
  have htv_le : an.total_value ≤ total_market_value (filtered_data idx selE selA) := by
    calc an.total_value
        = (an.entities.map (fun e => holderWeight idx e a0)).sum := htv_eq
      _ ≤ (an.entities.map (fun e => holdingsSum (entityNode idx e))).sum :=
          List.sum_le_sum h_le
      _ ≤ ((filtered_data idx selE selA).entities.map
            (fun p => holdingsSum p.2)).sum := hsum2
      _ = total_market_value (filtered_data idx selE selA) := hT_eq.symm
  rw [hassetnode] at hap
  rw [hbp, ← hap]
  constructor
  · exact mul_nonneg (div_nonneg htv_nonneg hT_nonneg) (by norm_num)
  · have h1 : an.total_value / total_market_value (filtered_data idx selE selA) ≤ 1 :=
      (div_le_one hT_pos).mpr htv_le
    calc an.total_value / total_market_value (filtered_data idx selE selA) * 100
        ≤ 1 * 100 := mul_le_mul_of_nonneg_right h1 (by norm_num)
      _ = 100 := one_mul 100

/-- C1 counterexample: selecting only entity A (total 100) together with
asset X (total 400, mostly held by the unselected B) renders a bubble whose
market-share percentage is 400: the filter of lines 253-259 keeps the
asset's full total while the denominator of line 922 shrinks to the
selected entities, so the percentage exceeds 100. -/
theorem percentage_exceeds_100_cex :
    (create_venn_diagram (filtered_data exIdx ["A"] ["X"])).map
        (fun s => s.bubbles.map AssetBubble.percentage) = .ok [400] ∧
    ¬ ((400 : ℚ) ≤ 100) := by
  constructor
  · with_unfolding_all rfl
  · norm_num

/-- C1 witness: the holder-closed selection of both entities with asset Y
renders every bubble with a percentage inside `[0, 100]`. -/
theorem filtered_percentage_bounds_witness :
    ((sceneOf (create_venn_diagram
        (filtered_data exIdx ["A", "B"] ["Y"]))).bubbles.map
      AssetBubble.percentage).all
        (fun p => decide ((0 : ℚ) ≤ p) && decide (p ≤ (100 : ℚ))) = true := by
  obtain ⟨s, hs⟩ := layoutTotal (filtered_data exIdx ["A", "B"] ["Y"])
    (by with_unfolding_all decide)
    (Or.inl (by with_unfolding_all decide))
    (by with_unfolding_all decide)
  have hs' : create_venn_diagram (filtered_data exIdx ["A", "B"] ["Y"]) =
      .ok (sceneOf (create_venn_diagram
        (filtered_data exIdx ["A", "B"] ["Y"]))) := by
    rw [hs]
    rfl
  have hb := filtered_percentage_bounds exIdx ["A", "B"] ["Y"]
    (sceneOf (create_venn_diagram (filtered_data exIdx ["A", "B"] ["Y"])))
    (by with_unfolding_all decide)
    (by with_unfolding_all decide)
    (by with_unfolding_all decide)
    hs'
  rw [List.all_eq_true]
  intro p hp
  obtain ⟨b, hbmem, rfl⟩ := List.mem_map.mp hp
  simp only [Bool.and_eq_true, decide_eq_true_eq]
  exact ⟨(hb b hbmem).1, (hb b hbmem).2⟩
